import Mathlib

/-!
# Verification of the NPC-Generation dialogue extraction and orchestration layer

Shallow embedding of `src/app/api.py` (the response-extraction engine
`extract_character_response`, the `/chat` memory filter and persistence gate,
`/clear-history`, and the character/environment loaders) over `List Char`.

Modelling conventions:
* Python `str` is modelled as `List Char`; string literals are written as
  Lean `String` and converted with `.toList`.
* Python `str.splitlines()` and `str.split('\n')` are both modelled as
  splitting on `'\n'` (the inputs of interest use `'\n'` line endings only).
* Python `str.lower()` / `str.isupper()` are modelled on ASCII letters.
* Python regular expressions are modelled by hand-rolled scanners that follow
  the leftmost-match, greedy/lazy backtracking semantics of each concrete
  pattern appearing in the source (documented at each definition).
-/

namespace NPC

/-- Python whitespace for `str.strip()` (ASCII part). -/
def isWS (c : Char) : Bool :=
  c = ' ' || c = '\t' || c = '\n' || c = '\r' || c = '\x0B' || c = '\x0C'

/-- ASCII lowercasing, as used by `str.lower()` on the inputs we model. -/
def lowerA (c : Char) : Char :=
  if 'A' ≤ c ∧ c ≤ 'Z' then Char.ofNat (c.toNat + 32) else c

/-- ASCII uppercase test, modelling `str.isupper()` for a single character. -/
def isUpperA (c : Char) : Bool :=
  'A' ≤ c && c ≤ 'Z'

/-- Case-insensitive character comparison. -/
def ciEq (c d : Char) : Bool :=
  lowerA c = lowerA d

/-- `[a-zA-Z0-9_]`, the regex word-character class (ASCII), for `\b`. -/
def isWordChar (c : Char) : Bool :=
  ('a' ≤ c && c ≤ 'z') || ('A' ≤ c && c ≤ 'Z') || ('0' ≤ c && c ≤ '9') || c = '_'

/-- Match the literal `lit` case-insensitively at the head of `s`,
returning the remainder after the literal. -/
def expectCI : List Char → List Char → Option (List Char)
  | [], s => some s
  | _ :: _, [] => none
  | p :: ps, c :: cs => if ciEq c p then expectCI ps cs else none

/-- Does `lit` occur (case-insensitively) at the head of `s`? -/
def startsWithCI (lit s : List Char) : Bool :=
  (expectCI lit s).isSome

/-- Does `lit` occur case-insensitively anywhere in `s`?
Models Python `lit in s.lower()` for a lowercase ASCII `lit`. -/
def ciContains (lit : List Char) : List Char → Bool
  | [] => startsWithCI lit []
  | c :: cs => startsWithCI lit (c :: cs) || ciContains lit cs

/-- Case-sensitive `startswith`. -/
def startsWith (lit s : List Char) : Bool :=
  s.take lit.length = lit

/-- Case-sensitive substring test, modelling Python `lit in s`. -/
def containsStr (lit : List Char) : List Char → Bool
  | [] => lit = []
  | c :: cs => startsWith lit (c :: cs) || containsStr lit cs

/-- Remainder of `s` after the first case-insensitive occurrence of `lit`. -/
def findCI (lit : List Char) : List Char → Option (List Char)
  | [] => expectCI lit []
  | c :: cs =>
    match expectCI lit (c :: cs) with
    | some r => some r
    | none => findCI lit cs

/-- `str.lstrip()`: drop leading whitespace. -/
def lstrip (s : List Char) : List Char :=
  s.dropWhile isWS

/-- `str.rstrip()`: drop trailing whitespace (structural definition). -/
def rstrip : List Char → List Char
  | [] => []
  | c :: cs =>
    match rstrip cs with
    | [] => if isWS c then [] else [c]
    | r => c :: r

/-- `str.strip()`. -/
def strip (s : List Char) : List Char :=
  lstrip (rstrip s)

/-- `str.lstrip(chars)` for an explicit character set. -/
def lstripChars (set : List Char) (s : List Char) : List Char :=
  s.dropWhile (fun c => set.contains c)

/-- Split on `'\n'` (models `str.split('\n')`, and `str.splitlines()` for
newline-terminated text; `splitN [] = [[]]` just as `"".split('\n') == [""]`). -/
def splitN : List Char → List (List Char)
  | [] => [[]]
  | c :: cs =>
    if c = '\n' then [] :: splitN cs
    else
      match splitN cs with
      | [] => [[c]]
      | l :: ls => (c :: l) :: ls

/-- `'\n'.join`. -/
def joinN : List (List Char) → List Char
  | [] => []
  | [l] => l
  | l :: ls => l ++ '\n' :: joinN ls

/-! ## Generic global-substitution scanner

`re.sub` with a deletion pattern is modelled as a left-to-right scan: at each
position try the match step (`step s = some rest` means a match starting here
whose whole matched text is deleted and scanning resumes at `rest`); on no
match the head character is kept and the scan moves one character right.
Fuel (`s.length`) makes the definition structural so it reduces by `rfl`. -/

def genRwGo (step : List Char → Option (List Char)) : Nat → List Char → List Char
  | 0, s => s
  | _ + 1, [] => []
  | n + 1, c :: cs =>
    match step (c :: cs) with
    | some rest => genRwGo step n rest
    | none => c :: genRwGo step n cs

/-- Global substitution-by-deletion driven by `step`. -/
def genRw (step : List Char → Option (List Char)) (s : List Char) : List Char :=
  genRwGo step s.length s

theorem genRwGo_nil (step : List Char → Option (List Char)) :
    ∀ n, genRwGo step n [] = [] := by
  intro n
  cases n <;> rfl

/-- Matchers that strictly shrink the input. -/
def Shrinking (step : List Char → Option (List Char)) : Prop :=
  ∀ s r, step s = some r → r.length < s.length

theorem genRwGo_congr (step : List Char → Option (List Char))
    (hstep : Shrinking step) :
    ∀ n m s, s.length ≤ n → s.length ≤ m → genRwGo step n s = genRwGo step m s := by
  intro n
  induction n with
  | zero =>
    intro m s hn _
    have hs : s = [] := List.eq_nil_of_length_eq_zero (Nat.le_zero.mp hn)
    subst hs
    rw [genRwGo_nil, genRwGo_nil]
  | succ n ih =>
    intro m s hn hm
    cases s with
    | nil => rw [genRwGo_nil, genRwGo_nil]
    | cons c cs =>
      cases m with
      | zero => exact absurd hm (by simp)
      | succ m =>
        show (match step (c :: cs) with
          | some rest => genRwGo step n rest
          | none => c :: genRwGo step n cs) =
          (match step (c :: cs) with
          | some rest => genRwGo step m rest
          | none => c :: genRwGo step m cs)
        cases hstp : step (c :: cs) with
        | some rest =>
          have hlt := hstep _ _ hstp
          have h1 : rest.length ≤ n := by
            have := Nat.lt_of_lt_of_le hlt hn
            omega
          have h2 : rest.length ≤ m := by
            have := Nat.lt_of_lt_of_le hlt hm
            omega
          simp only [hstp]
          exact ih m rest h1 h2
        | none =>
          have h1 : cs.length ≤ n := by simpa using hn
          have h2 : cs.length ≤ m := by simpa using hm
          simp only [hstp]
          rw [ih m cs h1 h2]

theorem genRw_cons (step : List Char → Option (List Char)) (hstep : Shrinking step)
    (c : Char) (cs : List Char) :
    genRw step (c :: cs) =
      match step (c :: cs) with
      | some rest => genRw step rest
      | none => c :: genRw step cs := by
  show genRwGo step (cs.length + 1) (c :: cs) = _
  show (match step (c :: cs) with
    | some rest => genRwGo step cs.length rest
    | none => c :: genRwGo step cs.length cs) = _
  cases hstp : step (c :: cs) with
  | some rest =>
    have hlt := hstep _ _ hstp
    have hle : rest.length ≤ cs.length := Nat.lt_succ_iff.mp (by simpa using hlt)
    simp only [hstp, genRw]
    exact genRwGo_congr step hstep cs.length rest.length rest hle (le_refl _)
  | none =>
    simp only [hstp, genRw]

theorem genRw_nil (step : List Char → Option (List Char)) : genRw step [] = [] := rfl

/-- If the step never fires on any suffix, the substitution is the identity. -/
theorem genRw_id (step : List Char → Option (List Char)) (hstep : Shrinking step)
    (s : List Char) (h : ∀ i, step (s.drop i) = none) : genRw step s = s := by
  induction s with
  | nil => rfl
  | cons c cs ih =>
    rw [genRw_cons step hstep]
    have h0 := h 0
    simp only [List.drop_zero] at h0
    rw [h0]
    have : ∀ i, step (cs.drop i) = none := fun i => h (i + 1)
    rw [ih this]

/-! ## Reasoning-pattern removal (api.py lines 628-633)

Each pattern has the shape `MARKER.*?$` with `IGNORECASE | MULTILINE | DOTALL`.
With `MULTILINE`, `$` matches before every newline, so the lazy `.*?$` stops at
the first newline at-or-after the marker: the match runs from the marker to the
end of the marker's line (or end of string), and `re.sub` deletes it and
resumes scanning at the newline. -/

/-- Keep the suffix starting at the first `'\n'` (empty if none): the part of
the line after the match that `.*?$` does NOT consume. -/
def dropToNL (s : List Char) : List Char :=
  s.dropWhile (fun c => c ≠ '\n')

/-- `\s+` (greedy): at least one whitespace character, then the maximal run. -/
def skipWS1 (s : List Char) : Option (List Char) :=
  match s with
  | c :: cs => if isWS c then some (cs.dropWhile isWS) else none
  | [] => none

/-- `[’\x27]?s` with the greedy optional quote (case-insensitive `s`). -/
def aposS (s : List Char) : Option (List Char) :=
  match s with
  | c :: d :: rest =>
    if (c = '’' || c = '\x27') && ciEq d 's' then some rest
    else if ciEq c 's' then some (d :: rest)
    else none
  | [c] => if ciEq c 's' then some [] else none
  | [] => none

/-- Marker of `re.sub(r'Here are my reasoning.*?$', ...)`. -/
def mReason1 (s : List Char) : Option (List Char) :=
  expectCI "here are my reasoning".toList s

/-- Marker of `re.sub(r'Here Are My Reasonings.*?$', ...)`. -/
def mReason2 (s : List Char) : Option (List Char) :=
  expectCI "here are my reasonings".toList s

/-- Marker of `re.sub(r'Let me think.*?$', ...)`. -/
def mReason3 (s : List Char) : Option (List Char) :=
  expectCI "let me think".toList s

/-- Marker of `re.sub(r'Okay,\s*let[’\x27]?s\s+see\..*?$', ...)`. -/
def mReason4 (s : List Char) : Option (List Char) :=
  (expectCI "okay,".toList s).bind fun r1 =>
  (expectCI "let".toList (r1.dropWhile isWS)).bind fun r2 =>
  (aposS r2).bind fun r3 =>
  (skipWS1 r3).bind fun r4 =>
  expectCI "see.".toList r4

/-- Marker of `re.sub(r'Okay,\s*let[’\x27]?s\s+.*?$', ...)`. -/
def mReason5 (s : List Char) : Option (List Char) :=
  (expectCI "okay,".toList s).bind fun r1 =>
  (expectCI "let".toList (r1.dropWhile isWS)).bind fun r2 =>
  (aposS r2).bind fun r3 =>
  skipWS1 r3

/-- One `re.sub(r'MARKER.*?$', '', text, IGNORECASE|MULTILINE|DOTALL)`. -/
def subEOL (m : List Char → Option (List Char)) (s : List Char) : List Char :=
  genRw (fun t => (m t).map dropToNL) s

theorem expectCI_length {lit s r : List Char} (h : expectCI lit s = some r) :
    r.length + lit.length = s.length := by
  induction lit generalizing s with
  | nil =>
    simp only [expectCI] at h
    cases h
    simp
  | cons p ps ih =>
    cases s with
    | nil => simp [expectCI] at h
    | cons c cs =>
      simp only [expectCI] at h
      by_cases hc : ciEq c p
      · rw [if_pos hc] at h
        have := ih h
        simp [this]
        omega
      · rw [if_neg hc] at h
        cases h

theorem dropWhile_length_le (p : Char → Bool) (s : List Char) :
    (s.dropWhile p).length ≤ s.length := by
  induction s with
  | nil => simp
  | cons c cs ih =>
    by_cases h : p c
    · simp only [List.dropWhile_cons, h, if_true]
      exact Nat.le_succ_of_le ih
    · simp [List.dropWhile_cons, h]

theorem dropToNL_length_le (s : List Char) : (dropToNL s).length ≤ s.length :=
  dropWhile_length_le _ s

theorem skipWS1_length {s r : List Char} (h : skipWS1 s = some r) :
    r.length < s.length := by
  cases s with
  | nil => simp [skipWS1] at h
  | cons c cs =>
    simp only [skipWS1] at h
    by_cases hc : isWS c
    · rw [if_pos hc] at h
      cases h
      exact Nat.lt_succ_of_le (dropWhile_length_le _ cs)
    · rw [if_neg hc] at h
      cases h

theorem aposS_length {s r : List Char} (h : aposS s = some r) :
    r.length < s.length := by
  match s with
  | [] => simp [aposS] at h
  | [c] =>
    simp only [aposS] at h
    split at h
    · cases h
      simp
    · cases h
  | c :: d :: rest =>
    simp only [aposS] at h
    split at h
    · cases h
      simp
      omega
    · split at h
      · cases h
        simp
      · cases h

theorem map_dropToNL_some {m : List Char → Option (List Char)} {s r : List Char}
    (h : (m s).map dropToNL = some r) : ∃ x, m s = some x ∧ r = dropToNL x := by
  cases hmx : m s with
  | none =>
    rw [hmx] at h
    cases h
  | some x =>
    rw [hmx] at h
    refine ⟨x, rfl, ?_⟩
    injection h with h
    exact h.symm

theorem mReason1_shrink : Shrinking (fun t => (mReason1 t).map dropToNL) := by
  intro s r h
  obtain ⟨x, hx, hr⟩ := map_dropToNL_some h
  subst hr
  have h1 := expectCI_length hx
  have h2 := dropToNL_length_le x
  simp [mReason1] at h1 ⊢
  omega

theorem mReason2_shrink : Shrinking (fun t => (mReason2 t).map dropToNL) := by
  intro s r h
  obtain ⟨x, hx, hr⟩ := map_dropToNL_some h
  subst hr
  have h1 := expectCI_length hx
  have h2 := dropToNL_length_le x
  simp [mReason2] at h1 ⊢
  omega

theorem mReason3_shrink : Shrinking (fun t => (mReason3 t).map dropToNL) := by
  intro s r h
  obtain ⟨x, hx, hr⟩ := map_dropToNL_some h
  subst hr
  have h1 := expectCI_length hx
  have h2 := dropToNL_length_le x
  simp [mReason3] at h1 ⊢
  omega

theorem mReason4_shrink : Shrinking (fun t => (mReason4 t).map dropToNL) := by
  intro s r h
  obtain ⟨x, hx, hr⟩ := map_dropToNL_some h
  subst hr
  simp only [mReason4, Option.bind_eq_some] at hx
  obtain ⟨r1, h1, r2, h2, r3, h3, r4, h4, h5⟩ := hx
  have e1 := expectCI_length h1
  have e2 := expectCI_length h2
  have e3 := aposS_length h3
  have e4 := skipWS1_length h4
  have e5 := expectCI_length h5
  have e6 := dropWhile_length_le isWS r1
  have e7 := dropToNL_length_le x
  simp at e1 e2 e5
  omega

theorem mReason5_shrink : Shrinking (fun t => (mReason5 t).map dropToNL) := by
  intro s r h
  obtain ⟨x, hx, hr⟩ := map_dropToNL_some h
  subst hr
  simp only [mReason5, Option.bind_eq_some] at hx
  obtain ⟨r1, h1, r2, h2, r3, h3, h4⟩ := hx
  have e1 := expectCI_length h1
  have e2 := expectCI_length h2
  have e3 := aposS_length h3
  have e4 := skipWS1_length h4
  have e6 := dropWhile_length_le isWS r1
  have e7 := dropToNL_length_le x
  simp at e1 e2
  omega

/-- All five reasoning-pattern substitutions, in source order. -/
def removeReasoningPatterns (s : List Char) : List Char :=
  subEOL mReason5 (subEOL mReason4 (subEOL mReason3 (subEOL mReason2 (subEOL mReason1 s))))

/-! ## `_strip_leading_meta_lines` (api.py lines 585-622) -/

/-- Is a (rstripped) line dropped while in the leading "dropping" state?
Mirrors the loop body: blank lines, meta-phrase lines (tested on the
punctuation-trimmed lowercase form) and a lone `"."` are dropped. -/
def droppableLine (ln : List Char) : Bool :=
  let raw := strip ln
  if raw = [] then true
  else
    let low := (strip (lstripChars ".-*•> ".toList raw)).map lowerA
    if startsWith "also ensure".toList low
        || startsWith "check for".toList low
        || startsWith "make sure".toList low
        || startsWith "now output".toList low
        || startsWith "must wrap".toList low
        || startsWith "so answer".toList low
        || startsWith "the user asks".toList low
        || startsWith "output format".toList low
        || startsWith "example (follow".toList low
        || startsWith "disallowed content".toList low
        || containsStr "disallowed content".toList low
        || containsStr "exactly one block".toList low
        || containsStr "it\x27s safe".toList low then true
    else raw = ['.']

/-- `_strip_leading_meta_lines`: rstrip every line, drop leading droppable
lines, keep everything from the first kept line on, rejoin and strip. -/
def stripLeadingMetaLines (s : List Char) : List Char :=
  if s = [] then s
  else strip (joinN (((splitN s).map rstrip).dropWhile droppableLine))

/-! ## Preface strip (api.py line 626)

`re.sub(r'^\s*\([^)]*response[^)]*\)\s*\n+', '', text, IGNORECASE)`: without
`MULTILINE`, `^` anchors only at position 0, so at most one match: optional
leading whitespace, a parenthesized chunk (up to the first `)`) containing
"response" case-insensitively, then a whitespace run that must contain a
newline; greedy backtracking ends the match just after the run's last
newline. -/

/-- Split at the first `')'`: contents before it and remainder after it. -/
def splitAtCloseParen : List Char → Option (List Char × List Char)
  | [] => none
  | c :: cs =>
    if c = ')' then some ([], cs)
    else (splitAtCloseParen cs).map (fun p => (c :: p.1, p.2))

/-- Index of the last `'\n'`. -/
def lastNLIdx : List Char → Option Nat
  | [] => none
  | c :: cs =>
    match lastNLIdx cs with
    | some i => some (i + 1)
    | none => if c = '\n' then some 0 else none

/-- The preface-stripping substitution. -/
def parenStrip (s : List Char) : List Char :=
  match s.dropWhile isWS with
  | '(' :: rest =>
    match splitAtCloseParen rest with
    | some (content, after) =>
      if ciContains "response".toList content then
        match lastNLIdx (after.takeWhile isWS) with
        | some i => after.drop (i + 1)
        | none => s
      else s
    | none => s
  | _ => s

/-! ## Directive-line removal (api.py lines 635-638)

Patterns `^\s*HEADER.*?\n+` with `IGNORECASE | MULTILINE` (no `DOTALL`).
`^` matches at position 0 and after each newline; `\s*` may span lines; the
lazy `.*?` cannot cross a newline, and the greedy `\n+` consumes the newline
run, after which scanning resumes (still at a line start). -/

/-- Trailing `.*?\n+` after a header that ends in a literal: consume to the
first newline, then the newline run; fail if no newline remains. -/
def trailingNL (r : List Char) : Option (List Char) :=
  match dropToNL r with
  | [] => none
  | t => some (t.dropWhile (fun c => c = '\n'))

/-- Trailing `\s+.*?\n+` after a header that ends in `\s+`: the greedy run of
whitespace (at least one), then `.*?\n+`; if no newline follows the run, the
engine backtracks `\s+` to end just before the run's last newline (which must
not be the run's first character). -/
def trailingWSNL (r : List Char) : Option (List Char) :=
  let run := r.takeWhile isWS
  if run = [] then none
  else
    match dropToNL (r.drop run.length) with
    | [] =>
      match lastNLIdx run with
      | some i => if 1 ≤ i then some (r.drop (i + 1)) else none
      | none => none
    | t => some (t.dropWhile (fun c => c = '\n'))

/-- `^\s*Okay,\s*i\s+need\s+to\s+.*?\n+`. -/
def dirNeedTo (s : List Char) : Option (List Char) :=
  (expectCI "okay,".toList (s.dropWhile isWS)).bind fun r1 =>
  (expectCI "i".toList (r1.dropWhile isWS)).bind fun r2 =>
  (skipWS1 r2).bind fun r3 =>
  (expectCI "need".toList r3).bind fun r4 =>
  (skipWS1 r4).bind fun r5 =>
  (expectCI "to".toList r5).bind fun r6 =>
  trailingWSNL r6

/-- `^\s*The\s+user\s+asks:.*?\n+`. -/
def dirUserAsks (s : List Char) : Option (List Char) :=
  (expectCI "the".toList (s.dropWhile isWS)).bind fun r1 =>
  (skipWS1 r1).bind fun r2 =>
  (expectCI "user".toList r2).bind fun r3 =>
  (skipWS1 r3).bind fun r4 =>
  (expectCI "asks:".toList r4).bind fun r5 =>
  trailingNL r5

/-- `^\s*Must\s+wrap\s+.*?\n+`. -/
def dirMustWrap (s : List Char) : Option (List Char) :=
  (expectCI "must".toList (s.dropWhile isWS)).bind fun r1 =>
  (skipWS1 r1).bind fun r2 =>
  (expectCI "wrap".toList r2).bind fun r3 =>
  trailingWSNL r3

/-- `^\s*So\s+answer:.*?\n+`. -/
def dirSoAnswer (s : List Char) : Option (List Char) :=
  (expectCI "so".toList (s.dropWhile isWS)).bind fun r1 =>
  (skipWS1 r1).bind fun r2 =>
  (expectCI "answer:".toList r2).bind fun r3 =>
  trailingNL r3

/-- Anchored scanner for the `^...`-patterns: a match may start only at
position 0 or right after a newline; deleted matches end after a newline run,
so scanning resumes at a line start. -/
def dirGo (m : List Char → Option (List Char)) : Nat → Bool → List Char → List Char
  | 0, _, s => s
  | _ + 1, _, [] => []
  | n + 1, anchor, c :: cs =>
    if anchor then
      match m (c :: cs) with
      | some rest => dirGo m n true rest
      | none => c :: dirGo m n (c = '\n') cs
    else c :: dirGo m n (c = '\n') cs

/-- One `re.sub(r'^\s*HEADER.*?\n+', '', text, IGNORECASE | MULTILINE)`. -/
def dirSub (m : List Char → Option (List Char)) (s : List Char) : List Char :=
  dirGo m s.length true s

/-- The four directive-line substitutions, in source order. -/
def removeDirectiveLines (s : List Char) : List Char :=
  dirSub dirSoAnswer (dirSub dirMustWrap (dirSub dirUserAsks (dirSub dirNeedTo s)))

/-! ## Tag and special-token removal (`re.sub(r'<[^>]+>', ...)` etc.) -/

/-- Index of the first occurrence of `c`. -/
def firstIdxOf (c : Char) : List Char → Option Nat
  | [] => none
  | d :: ds =>
    if d = c then some 0
    else (firstIdxOf c ds).map (· + 1)

/-- Match step for `<[^>]+>`: at `'<'`, at least one non-`'>'` character and
then `'>'`; everything through the `'>'` is deleted. -/
def tagStep : List Char → Option (List Char)
  | [] => none
  | c :: cs =>
    if c = '<' then
      match firstIdxOf '>' cs with
      | some i => if 1 ≤ i then some (cs.drop (i + 1)) else none
      | none => none
    else none

/-- Match step for `<\|[^|]+\|>`. -/
def specialStep : List Char → Option (List Char)
  | c :: d :: cs =>
    if c = '<' && d = '|' then
      match firstIdxOf '|' cs with
      | some i =>
        if 1 ≤ i then
          match cs.drop (i + 1) with
          | '>' :: rest => some rest
          | _ => none
        else none
      | none => none
    else none
  | _ => none

/-- `re.sub(r'<[^>]+>', '', s)`. -/
def subTags (s : List Char) : List Char :=
  genRw tagStep s

/-- `re.sub(r'<\|[^|]+\|>', '', s)`. -/
def subSpecial (s : List Char) : List Char :=
  genRw specialStep s

theorem firstIdxOf_length {c : Char} {s : List Char} {i : Nat}
    (h : firstIdxOf c s = some i) : i < s.length := by
  induction s generalizing i with
  | nil => simp [firstIdxOf] at h
  | cons d ds ih =>
    simp only [firstIdxOf] at h
    by_cases hd : d = c
    · rw [if_pos hd] at h
      cases h
      simp
    · rw [if_neg hd] at h
      cases hj : firstIdxOf c ds with
      | none => rw [hj] at h; cases h
      | some j =>
        rw [hj] at h
        injection h with h
        subst h
        have := ih hj
        simp
        omega

theorem tagStep_shrink : Shrinking tagStep := by
  intro s r h
  cases s with
  | nil => simp [tagStep] at h
  | cons c cs =>
    simp only [tagStep] at h
    split at h
    · cases hi : firstIdxOf '>' cs with
      | none => rw [hi] at h; cases h
      | some i =>
        rw [hi] at h
        dsimp only at h
        by_cases h1 : 1 ≤ i
        · rw [if_pos h1] at h
          injection h with h
          subst h
          have h2 : (cs.drop (i + 1)).length ≤ cs.length := by simp
          simp
          omega
        · rw [if_neg h1] at h
          cases h
    · cases h

theorem specialStep_shrink : Shrinking specialStep := by
  intro s r h
  match s with
  | [] => simp [specialStep] at h
  | [c] => simp [specialStep] at h
  | c :: d :: cs =>
    simp only [specialStep] at h
    split at h
    · cases hi : firstIdxOf '|' cs with
      | none => rw [hi] at h; cases h
      | some i =>
        rw [hi] at h
        dsimp only at h
        by_cases h1 : 1 ≤ i
        · rw [if_pos h1] at h
          split at h
          · injection h with h
            subst h
            rename_i rest heq
            have h2 : (cs.drop (i + 1)).length ≤ cs.length := by simp
            rw [heq] at h2
            simp at h2
            simp
            omega
          · cases h
        · rw [if_neg h1] at h
          cases h
    · cases h

/-! ## Closed `<response>...</response>` blocks (api.py line 642)

`re.findall(r'<response>(.*?)</response>', text, DOTALL | IGNORECASE)`:
left-to-right scan; at each `<response>` the lazy group runs to the first
`</response>`; scanning resumes after the closing tag. -/

/-- Split at the first case-insensitive `</response>`. -/
def findCloseSplit : List Char → Option (List Char × List Char)
  | [] => none
  | c :: cs =>
    match expectCI "</response>".toList (c :: cs) with
    | some rest => some ([], rest)
    | none => (findCloseSplit cs).map (fun p => (c :: p.1, p.2))

theorem findCloseSplit_length {s g rest : List Char}
    (h : findCloseSplit s = some (g, rest)) : g.length + rest.length + 11 = s.length := by
  induction s generalizing g rest with
  | nil => simp [findCloseSplit] at h
  | cons c cs ih =>
    simp only [findCloseSplit] at h
    cases he : expectCI "</response>".toList (c :: cs) with
    | some r =>
      rw [he] at h
      injection h with h
      injection h with h1 h2
      subst h1
      subst h2
      have := expectCI_length he
      simp at this ⊢
      omega
    | none =>
      rw [he] at h
      cases hf : findCloseSplit cs with
      | none => rw [hf] at h; cases h
      | some p =>
        rw [hf] at h
        injection h with h
        cases p with
        | mk g0 r0 =>
          injection h with h1 h2
          subst h2
          have := ih hf
          simp at h1
          cases h1
          simp at this ⊢
          omega

def findBlocksGo : Nat → List Char → List (List Char)
  | 0, _ => []
  | _ + 1, [] => []
  | n + 1, c :: cs =>
    match expectCI "<response>".toList (c :: cs) with
    | some afterOpen =>
      match findCloseSplit afterOpen with
      | some (g, rest) => g :: findBlocksGo n rest
      | none => findBlocksGo n cs
    | none => findBlocksGo n cs

/-- All groups of `re.findall(r'<response>(.*?)</response>', s, DOTALL | IGNORECASE)`. -/
def findBlocks (s : List Char) : List (List Char) :=
  findBlocksGo s.length s

/-! ## Block scoring (api.py `_score`, lines 645-660) and Python `max(key=...)` -/

/-- Placeholder test on the stripped block. -/
def isPlaceholderBlock (b : List Char) : Bool :=
  b = "...".toList || b = "…".toList
    || containsStr "i\x27m ...".toList (b.map lowerA)
    || containsStr "i’m ...".toList (b.map lowerA)

/-- Meta-marker test on the stripped block. -/
def hasMetaMarker (b : List Char) : Bool :=
  containsStr "also ensure".toList (b.map lowerA)
    || containsStr "check for".toList (b.map lowerA)
    || containsStr "make sure".toList (b.map lowerA)
    || containsStr "now output".toList (b.map lowerA)
    || containsStr "disallowed content".toList (b.map lowerA)
    || containsStr "it\x27s safe".toList (b.map lowerA)
    || containsStr "guardrails".toList (b.map lowerA)
    || containsStr "exactly one block".toList (b.map lowerA)

/-- `_score(block)`: `(0/1 placeholder, 0/1 meta, len(stripped))`. -/
def scoreTriple (block : List Char) : Nat × Nat × Nat :=
  let b := strip block
  (if isPlaceholderBlock b then 0 else 1,
   if hasMetaMarker b then 0 else 1,
   b.length)

/-- Strict lexicographic comparison of Python 3-tuples of ints. -/
def tripleLtB (p q : Nat × Nat × Nat) : Bool :=
  decide (p.1 < q.1 ∨ (p.1 = q.1 ∧ (p.2.1 < q.2.1 ∨ (p.2.1 = q.2.1 ∧ p.2.2 < q.2.2))))

/-- Python `max(x :: xs, key=f)`: the first element with the maximal key. -/
def pyMaxBy (f : List Char → Nat × Nat × Nat) (x : List Char) (xs : List (List Char)) :
    List Char :=
  xs.foldl (fun best y => if tripleLtB (f best) (f y) then y else best) x

/-! ## Remaining fallbacks and the full extraction engine -/

/-- Unterminated-tag fallback (api.py lines 670-676): the suffix after the
first `<response>` when it is non-empty (`re.search(r'<response>\s*([\s\S]+)$', ...)`;
the leading `\s*` is immaterial because the group is then `.strip()`ed). -/
def openTagRest (t : List Char) : Option (List Char) :=
  (findCI "<response>".toList t).bind fun r =>
    match r with
    | [] => none
    | _ => some r

/-- `she|he|they` (case-insensitive; the alternatives have distinct first
letters, so untried alternatives cannot resurrect a failed match). -/
def altPronoun (s : List Char) : Option (List Char) :=
  match expectCI "she".toList s with
  | some r => some r
  | none =>
    match expectCI "he".toList s with
    | some r => some r
    | none => expectCI "they".toList s

/-- The lazy quoted group `["“](.+?)["”]`: an opening quote, at least one
character, then the first closing quote. -/
def quoteGroup : List Char → Option (List Char)
  | q :: c :: cs =>
    if q = '"' || q = '“' then
      match firstIdxOf2 cs with
      | some i => some (c :: cs.take i)
      | none => none
    else none
  | _ => none
where
  /-- Index of the first `'"'` or `'”'`. -/
  firstIdxOf2 : List Char → Option Nat
    | [] => none
    | d :: ds =>
      if d = '"' || d = '”' then some 0
      else (firstIdxOf2 ds).map (· + 1)

/-- One attempt of `(?is)\b(?:she|he|they)\s+might\s+say:\s*["“](.+?)["”]`
at the current position (the `\b` is checked by the caller). -/
def draftedAttempt (s : List Char) : Option (List Char) :=
  (altPronoun s).bind fun r1 =>
  (skipWS1 r1).bind fun r2 =>
  (expectCI "might".toList r2).bind fun r3 =>
  (skipWS1 r3).bind fun r4 =>
  (expectCI "say:".toList r4).bind fun r5 =>
  quoteGroup (r5.dropWhile isWS)

/-- `re.search` scan for the drafted-dialogue pattern, tracking the
word-character status of the previous character for `\b`. -/
def draftedGo : Bool → List Char → Option (List Char)
  | _, [] => none
  | prevW, c :: cs =>
    if prevW then draftedGo (isWordChar c) cs
    else
      match draftedAttempt (c :: cs) with
      | some g => some g
      | none => draftedGo (isWordChar c) cs

def draftedSearch (s : List Char) : Option (List Char) :=
  draftedGo false s

/-- The nine reasoning/meta words of the first-substantial-line fallback. -/
def hasReasonWords (l : List Char) : Bool :=
  containsStr "here are".toList (l.map lowerA)
    || containsStr "reasoning".toList (l.map lowerA)
    || containsStr "let me think".toList (l.map lowerA)
    || containsStr "we need".toList (l.map lowerA)
    || containsStr "the user".toList (l.map lowerA)
    || containsStr "the system".toList (l.map lowerA)
    || containsStr "i need to".toList (l.map lowerA)
    || containsStr "i have to".toList (l.map lowerA)
    || containsStr "i must".toList (l.map lowerA)

/-- First-substantial-line fallback (api.py lines 687-698). -/
def firstSubstantialLine : List (List Char) → Option (List Char)
  | [] => none
  | ln :: rest =>
    match strip ln with
    | [] => firstSubstantialLine rest
    | c :: cs =>
      if 10 < (c :: cs).length
          && !hasReasonWords (c :: cs)
          && (isUpperA c || c = '"' || c = '\x27') then
        some (strip (subSpecial (subTags (c :: cs))))
      else firstSubstantialLine rest

/-- Match step for `\?{3,}.*$` with MULTILINE: three question marks start a
match that runs to the end of the line. -/
def qqqStep : List Char → Option (List Char)
  | c :: d :: e :: rest =>
    if c = '?' && d = '?' && e = '?' then some (dropToNL rest) else none
  | _ => none

theorem qqqStep_shrink : Shrinking qqqStep := by
  intro s r h
  match s with
  | [] => simp [qqqStep] at h
  | [c] => simp [qqqStep] at h
  | [c, d] => simp [qqqStep] at h
  | c :: d :: e :: rest =>
    simp only [qqqStep] at h
    split at h
    · injection h with h
      subst h
      have := dropToNL_length_le rest
      simp
      omega
    · cases h

/-- Marker of `re.sub(r'Okay let me think.*$', '', s, IGNORECASE | MULTILINE)`. -/
def mOkayLMT (s : List Char) : Option (List Char) :=
  expectCI "okay let me think".toList s

theorem mOkayLMT_shrink : Shrinking (fun t => (mOkayLMT t).map dropToNL) := by
  intro s r h
  obtain ⟨x, hx, hr⟩ := map_dropToNL_some h
  subst hr
  have h1 := expectCI_length hx
  have h2 := dropToNL_length_le x
  simp [mOkayLMT] at h1 ⊢
  omega

/-- Last-resort cleanup (api.py lines 700-710). -/
def finalCleanup (t : List Char) : List Char :=
  strip (stripLeadingMetaLines (subEOL mOkayLMT (genRw qqqStep (strip (subSpecial (subTags t))))))

/-- The preprocessing applied before any tag extraction: preface strip,
reasoning-pattern removal, directive-line removal, leading-meta-line strip
(api.py lines 626-639). -/
def preprocessOf (s : List Char) : List Char :=
  stripLeadingMetaLines (removeDirectiveLines (removeReasoningPatterns (parenStrip s)))

/-- `extract_character_response` (api.py lines 581-710). -/
def extractCharacterResponse (s : List Char) : List Char :=
  let t := preprocessOf s
  match findBlocks t with
  | b :: bs =>
    stripLeadingMetaLines (subSpecial (subTags (strip (pyMaxBy scoreTriple b bs))))
  | [] =>
    match openTagRest t with
    | some rest => stripLeadingMetaLines (subSpecial (subTags (strip rest)))
    | none =>
      match draftedSearch t with
      | some g => strip (subSpecial (subTags (strip g)))
      | none =>
        match firstSubstantialLine (splitN t) with
        | some ln => ln
        | none => finalCleanup t

/-- String-level wrapper. -/
def extractS (s : String) : String :=
  ⟨extractCharacterResponse s.toList⟩

/-! ## The `/chat` orchestrator (api.py lines 1072-1308)

External collaborators are inputs: the memory query outcome (the
`results['documents']` list of document lists, or a failure), whether a
collection handle was obtained, and the completion provider's outcome (the
`choices` texts, or an HTTP/transport/parse failure). -/

/-- The seven case-sensitive pollution substrings, shared by the retrieved
memory filter (`skip_patterns`) and the pre-persistence gate
(`reasoning_indicators`). -/
def hasPollutionPattern (d : List Char) : Bool :=
  containsStr "The user says".toList d
    || containsStr "We need to respond".toList d
    || containsStr "Here are my reasoning".toList d
    || containsStr "Thus final answer".toList d
    || containsStr "[BEGIN FINAL RESPONSE]".toList d
    || containsStr "Your output:".toList d
    || containsStr "The system expects".toList d

/-- The inner document loop of the memory filter (api.py lines 1103-1124):
`if doc and isinstance(doc, str)`, skip on a pollution pattern or
`len(doc) > 500`, else append. -/
def filterDocLoop (acc : List (List Char)) (dl : List (List Char)) : List (List Char) :=
  dl.foldl
    (fun acc d =>
      if d ≠ [] then
        if hasPollutionPattern d || decide (500 < d.length) then acc else acc ++ [d]
      else acc)
    acc

/-- `filtered_docs` (api.py lines 1100-1124): `none` models `results is None`. -/
def filteredDocs (results : Option (List (List (List Char)))) : List (List Char) :=
  match results with
  | none => []
  | some dls => if dls = [] then [] else dls.foldl filterDocLoop []

/-- `memory_context` (api.py line 1127): `"\n".join(filtered_docs[:2])` when
any filtered docs exist, else the empty string. -/
def memoryContextOf (results : Option (List (List (List Char)))) : List Char :=
  let fd := filteredDocs results
  if fd = [] then [] else joinN (fd.take 2)

/-- Observable outcome of a successful `/chat` turn. -/
structure ChatOut where
  response : List Char
  memoryContext : List Char
  persisted : Option (List Char)
  persistOk : Bool
deriving DecidableEq

/-- The persistence gate (api.py lines 1282-1296): the outer
`if output_content and len(output_content) > 5` and the inner
`if is_clean and len(output_content) < 1000 and collection`. -/
def persistGate (out : List Char) (collection : Bool) : Bool :=
  (decide (out ≠ []) && decide (5 < out.length))
    && (!hasPollutionPattern out && decide (out.length < 1000) && collection)

/-- Inputs of one `/chat` turn. -/
structure ChatEnv where
  /-- The active character's name, when a character context is loaded. -/
  character : Option (List Char)
  /-- Outcome of the ChromaDB query: `results['documents']` or an error. -/
  memory : Except (List Char) (List (List (List Char)))
  /-- Whether `get_or_create_collection` returned a handle. -/
  collection : Bool
  /-- Outcome of the Together AI call: the `choices` texts, or an error
  (transport failure, HTTP error status, JSON decode failure, missing key). -/
  provider : Except (List Char) (List (List Char))
  /-- Whether `collection.add` succeeds when attempted. -/
  addOk : Bool

/-- `results` as seen by the filter: a memory failure is caught and leaves
`results = None` (api.py lines 1096-1098). -/
def resultsOf (mem : Except (List Char) (List (List (List Char)))) :
    Option (List (List (List Char))) :=
  match mem with
  | .error _ => none
  | .ok dls => some dls

/-- `output_content` (api.py lines 1263-1272): extract from the stripped
provider text; a too-short result triggers an (idempotent) re-extraction and
finally falls back to the stripped raw text. -/
def chatOutput (t : List Char) : List Char :=
  let raw := strip t
  let out0 := extractCharacterResponse raw
  if out0 = [] || out0.length < 5 then
    let out1 := extractCharacterResponse raw
    if out1 = [] || out1.length < 5 then strip raw else out1
  else out0

/-- The `/chat` handler. `Except.error` is a user-visible HTTP 500. -/
def chatHandler (e : ChatEnv) : Except (List Char) ChatOut :=
  match e.character with
  | none => .error "Character context not loaded.".toList
  | some _ =>
    match e.provider with
    | .error msg => .error ("Error generating response: ".toList ++ msg)
    | .ok [] => .error "Error generating response: list index out of range".toList
    | .ok (t :: _) =>
      .ok { response := chatOutput t,
            memoryContext := memoryContextOf (resultsOf e.memory),
            persisted :=
              if persistGate (chatOutput t) e.collection then some (chatOutput t) else none,
            persistOk := persistGate (chatOutput t) e.collection && e.addOk }

/-! ## `/clear-history` (api.py lines 1311-1356) -/

/-- Observable outcome of `/clear-history`; the endpoint never raises, so
this is a plain record (always a 200-equivalent `ClearHistoryResponse`).
`deleteCalled` records the ids passed to `collection.delete`, if issued. -/
structure ClearOut where
  message : List Char
  success : Bool
  deleteCalled : Option (List (List Char))
deriving DecidableEq

/-- The ChromaDB-version diagnostic message. -/
def chromaVersionMsg : List Char :=
  ("ChromaDB Cloud API version issue. Please check your ChromaDB Cloud "
    ++ "configuration or update ChromaDB client version.").toList

/-- Message formatting for an inner ChromaDB failure. -/
def chromaErrorOut (e : List Char) (del : Option (List (List Char))) : ClearOut :=
  if containsStr "v1 API is deprecated".toList e || containsStr "410 Gone".toList e then
    { message := chromaVersionMsg, success := false, deleteCalled := del }
  else
    { message := "Error connecting to ChromaDB: ".toList ++ e, success := false,
      deleteCalled := del }

/-- The `/clear-history` handler. `store` is the outcome of connecting and
fetching `collection.get()['ids']`; `deleteOutcome` is the outcome of the
`collection.delete(ids=...)` call when one is issued. The `HTTPException`
raised when no character is loaded is caught by the outer `except` and
reported as a failure result (FastAPI renders `str(e)` as `500: <detail>`). -/
def clearHistory (character : Option (List Char))
    (store : Except (List Char) (List (List Char)))
    (deleteOutcome : Except (List Char) Unit) : ClearOut :=
  match character with
  | none =>
    { message := "Error clearing history: 500: Character context not loaded.".toList,
      success := false, deleteCalled := none }
  | some name =>
    match store with
    | .error e => chromaErrorOut e none
    | .ok ids =>
      match ids with
      | [] =>
        { message := "No history found for ".toList ++ name ++ ".".toList,
          success := true, deleteCalled := none }
      | _ :: _ =>
        match deleteOutcome with
        | .ok _ =>
          { message := "Cleared conversation history for ".toList ++ name ++ ".".toList,
            success := true, deleteCalled := some ids }
        | .error e => chromaErrorOut e (some ids)

/-! ## Character/environment loading (api.py lines 433-444, 488-515, 532-564) -/

/-- JSON values. -/
inductive J where
  | str : List Char → J
  | num : Int → J
  | bool : Bool → J
  | null : J
  | arr : List J → J
  | obj : List (List Char × J) → J

/-- A JSON object as an ordered key/value list (Python dict keys are unique
and insertion-ordered). -/
abbrev JObj := List (List Char × J)

/-- First-match key lookup. -/
def assoc : JObj → List Char → Option J
  | [], _ => none
  | (k, v) :: rest, key => if k = key then some v else assoc rest key

/-- `dict.get(key, default)`. -/
def getD (o : JObj) (k : List Char) (d : J) : J :=
  (assoc o k).getD d

/-- `_looks_like_character`: the required key set is a subset of the keys. -/
def looksLikeCharacter (o : JObj) : Bool :=
  (["name", "age", "gender", "personalities", "appearance", "background",
    "skills", "secrets"] : List String).all fun k => (assoc o k.toList).isSome

/-- `_looks_like_environment`. -/
def looksLikeEnvironment (o : JObj) : Bool :=
  (["era", "time_period", "detail", "guardrails"] : List String).all fun k =>
    (assoc o k.toList).isSome

/-- `POST /config/environment/load` with a filename: after validation, the
active environment is rebuilt from exactly four keys (api.py lines 557-562). -/
def loadEnvironmentFromFile (data : JObj) : Except (List Char) JObj :=
  if looksLikeEnvironment data then
    .ok [("era".toList, getD data "era".toList (J.str [])),
         ("time_period".toList, getD data "time_period".toList (J.str [])),
         ("detail".toList, getD data "detail".toList (J.obj [])),
         ("guardrails".toList, getD data "guardrails".toList (J.obj []))]
  else .error "File does not look like an environment JSON".toList

/-- `POST /config/environment/load` with an inline object: stored verbatim
(api.py line 544). -/
def loadEnvironmentInline (data : JObj) : Except (List Char) JObj :=
  if looksLikeEnvironment data then .ok data
  else .error "environment object does not match expected schema".toList

/-- `POST /config/character/load` with a filename: stored verbatim
(api.py line 513). -/
def loadCharacterFromFile (data : JObj) : Except (List Char) JObj :=
  if looksLikeCharacter data then .ok data
  else .error "File does not look like a character JSON".toList

/-- `POST /config/character/load` with an inline object: stored verbatim
(api.py line 500). -/
def loadCharacterInline (data : JObj) : Except (List Char) JObj :=
  if looksLikeCharacter data then .ok data
  else .error "character object does not match expected schema".toList

/-! ## Supporting lemmas for the memory filter (C6) -/

/-- The document-keeping condition of the memory filter, stated positively:
non-empty, no pollution substring, length at most 500. -/
def keepDoc (d : List Char) : Bool :=
  decide (d ≠ []) && !hasPollutionPattern d && decide (d.length ≤ 500)

/-- The keeping condition exactly as claim C6 words it (no empty-document
drop): only pollution substrings and the 500-character ceiling. -/
def keepDocClaim (d : List Char) : Bool :=
  !hasPollutionPattern d && decide (d.length ≤ 500)

/-- The memory context that claim C6's wording prescribes. -/
def memoryContextClaim (dls : List (List (List Char))) : List Char :=
  joinN ((dls.flatten.filter keepDocClaim).take 2)

theorem filterDocLoop_eq (dl : List (List Char)) :
    ∀ acc, filterDocLoop acc dl = acc ++ dl.filter keepDoc := by
  induction dl with
  | nil => intro acc; simp [filterDocLoop]
  | cons d dl ih =>
    intro acc
    have step : filterDocLoop acc (d :: dl) =
        filterDocLoop
          (if d ≠ [] then
            if hasPollutionPattern d || decide (500 < d.length) then acc else acc ++ [d]
          else acc) dl := rfl
    rw [step, ih]
    by_cases hd : d = []
    · subst hd
      simp [keepDoc, List.filter_cons]
    · by_cases hp : hasPollutionPattern d = true
      · simp [hd, hp, keepDoc, List.filter_cons]
      · by_cases hl : 500 < d.length
        · have : ¬ d.length ≤ 500 := by omega
          simp [hd, hp, hl, keepDoc, List.filter_cons, this]
        · have : d.length ≤ 500 := by omega
          simp [hd, hp, hl, keepDoc, List.filter_cons, this]

theorem foldl_filterDocLoop (dls : List (List (List Char))) :
    ∀ acc, dls.foldl filterDocLoop acc = acc ++ dls.flatten.filter keepDoc := by
  induction dls with
  | nil => intro acc; simp
  | cons dl dls ih =>
    intro acc
    have : (dl :: dls).foldl filterDocLoop acc = dls.foldl filterDocLoop (filterDocLoop acc dl) :=
      rfl
    rw [this, ih, filterDocLoop_eq]
    simp [List.filter_append]

theorem filteredDocs_eq (dls : List (List (List Char))) :
    filteredDocs (some dls) = dls.flatten.filter keepDoc := by
  cases dls with
  | nil => simp [filteredDocs]
  | cons dl dls =>
    show (if (dl :: dls) = [] then [] else (dl :: dls).foldl filterDocLoop []) = _
    rw [if_neg (by simp)]
    rw [foldl_filterDocLoop]
    simp

theorem memoryContextOf_some (dls : List (List (List Char))) :
    memoryContextOf (some dls) = joinN ((dls.flatten.filter keepDoc).take 2) := by
  show (if filteredDocs (some dls) = [] then [] else joinN ((filteredDocs (some dls)).take 2)) = _
  rw [filteredDocs_eq]
  by_cases h : dls.flatten.filter keepDoc = []
  · rw [if_pos h, h]
    rfl
  · rw [if_neg h]

/-! ## Claim theorems: C6, C7, C8, C9, C10 -/

/-- C6 (counterexample): the `/chat` memory filter also drops EMPTY retrieved
documents (`if doc and isinstance(doc, str)`), which the claim's "dropping
exactly those ..." enumeration omits: on the query result `[["", "Hello."]]`
the code builds the context `"Hello."`, while the claim's rule keeps the empty
document and would build `"\nHello."`. -/
theorem memoryContext_drops_empty_doc_counterexample :
    memoryContextOf (some [[[], "Hello.".toList]]) = "Hello.".toList ∧
    memoryContextClaim [[[], "Hello.".toList]] = '\n' :: "Hello.".toList ∧
    memoryContextOf (some [[[], "Hello.".toList]]) ≠ memoryContextClaim [[[], "Hello.".toList]] := by
  refine ⟨by decide, by decide, by decide⟩

/-- C6 (amended): the memory context is built from the flattened query result
by dropping exactly the documents that are empty, contain one of the seven
pollution substrings, or exceed 500 characters; of the survivors the first
two are joined with newlines, in original order (the kept list is a sublist
of the query result, never re-sorted); a failed query yields an empty
context. -/
theorem memoryContext_filter_take_two :
    (∀ dls : List (List (List Char)),
      memoryContextOf (some dls) = joinN ((dls.flatten.filter keepDoc).take 2) ∧
      ((dls.flatten.filter keepDoc).take 2).length ≤ 2 ∧
      ((dls.flatten.filter keepDoc).take 2).Sublist dls.flatten) ∧
    memoryContextOf none = [] ∧
    (∀ d, keepDoc d = (decide (d ≠ []) && !hasPollutionPattern d && decide (d.length ≤ 500))) := by
  refine ⟨fun dls => ⟨memoryContextOf_some dls, ?_, ?_⟩, rfl, fun d => rfl⟩
  · simp
  · exact (List.take_sublist _ _).trans (List.filter_sublist _)

theorem containsStr_head {p : Char} {ps s : List Char}
    (h : containsStr (p :: ps) s = true) : p ∈ s := by
  induction s with
  | nil => simp [containsStr] at h
  | cons c cs ih =>
    simp only [containsStr, Bool.or_eq_true] at h
    cases h with
    | inl h =>
      simp only [startsWith, List.take, decide_eq_true_eq] at h
      have hc : c = p := by
        have := congrArg (fun l => l.head?) h
        simpa using this
      exact hc ▸ List.mem_cons_self c cs
    | inr h => exact List.mem_cons_of_mem c (ih h)

theorem persistGate_iff (out : List Char) (coll : Bool) :
    persistGate out coll = true ↔
      5 < out.length ∧ hasPollutionPattern out = false ∧ out.length < 1000 ∧ coll = true := by
  unfold persistGate
  rw [Bool.and_eq_true, Bool.and_eq_true, Bool.and_eq_true, Bool.and_eq_true]
  constructor
  · rintro ⟨⟨-, h2⟩, ⟨h3, h4⟩, h5⟩
    refine ⟨of_decide_eq_true h2, ?_, of_decide_eq_true h4, h5⟩
    cases hx : hasPollutionPattern out
    · rfl
    · rw [hx] at h3
      cases h3
  · rintro ⟨h1, h2, h3, h4⟩
    have hne : out ≠ [] := by
      intro hc
      subst hc
      exact absurd h1 (by decide)
    exact ⟨⟨decide_eq_true hne, decide_eq_true h1⟩, ⟨by rw [h2]; rfl, decide_eq_true h3⟩, h4⟩

/-- C7 (confirmed): the extracted response is persisted exactly when it is
longer than 5 characters, contains none of the seven pollution substrings,
is under 1000 characters, and a collection handle is available; the returned
response does not depend on the gate or on the success of the add call
(persistence failures are swallowed); a 1001-character clean string fails
the gate. -/
theorem chat_persistence_gate :
    (∀ out coll, persistGate out coll = true ↔
      5 < out.length ∧ hasPollutionPattern out = false ∧ out.length < 1000 ∧ coll = true) ∧
    (∀ ch mem coll t rest add,
      chatHandler ⟨some ch, mem, coll, .ok (t :: rest), add⟩ =
        .ok { response := chatOutput t,
              memoryContext := memoryContextOf (resultsOf mem),
              persisted :=
                if persistGate (chatOutput t) coll then some (chatOutput t) else none,
              persistOk := persistGate (chatOutput t) coll && add }) ∧
    persistGate (List.replicate 1001 'a') true = false ∧
    hasPollutionPattern (List.replicate 1001 'a') = false ∧
    5 < (List.replicate 1001 'a').length := by
  have hpoll : hasPollutionPattern (List.replicate 1001 'a') = false := by
    cases hx : hasPollutionPattern (List.replicate 1001 'a')
    · rfl
    · exfalso
      simp only [hasPollutionPattern, Bool.or_eq_true] at hx
      rcases hx with ((((((h | h) | h) | h) | h) | h) | h) <;>
        · have h2 := containsStr_head h
          have h3 := List.eq_of_mem_replicate h2
          exact absurd h3 (by decide)
  refine ⟨persistGate_iff, fun ch mem coll t rest add => rfl, ?_, hpoll, ?_⟩
  swap
  · rw [List.length_replicate]
    omega
  unfold persistGate
  have h1 : decide ((List.replicate 1001 'a').length < 1000) = false := by
    rw [List.length_replicate]
    rfl
  rw [h1, hpoll]
  simp only [Bool.not_false, Bool.true_and, Bool.and_false, Bool.false_and]

/-- The concrete environment of the C8 counterexample: a character is loaded
and the provider HTTP call succeeds, but its JSON carries an empty `choices`
list, so `result["choices"][0]` raises and the turn still fails with a 500. -/
def chatEnvNoChoices : ChatEnv :=
  { character := some "Kaiya Starling".toList,
    memory := .ok [],
    collection := false,
    provider := .ok [],
    addOk := true }

/-- C8 (counterexample): the claim says the turn fails "exactly when no
active character is loaded or when the completion-provider HTTP call fails",
but a successful call whose body has no choices also fails the turn. -/
theorem chat_error_empty_choices_counterexample :
    chatHandler chatEnvNoChoices =
      .error "Error generating response: list index out of range".toList ∧
    chatEnvNoChoices.character ≠ none ∧
    chatEnvNoChoices.provider = .ok [] :=
  ⟨rfl, fun h => Option.noConfusion h, rfl⟩

/-- C8 (amended): the turn fails with a user-visible 500 exactly when no
active character is loaded, or the provider call fails (the underlying error
message is attached, with no retry — the handler consults the provider
outcome once), or the provider's response carries no choices; every
memory-query failure behaves exactly like an empty query result, so the turn
still completes. -/
theorem chat_error_conditions :
    (∀ e : ChatEnv, (∃ msg, chatHandler e = .error msg) ↔
      (e.character = none ∨ (∃ err, e.provider = .error err) ∨ e.provider = .ok [])) ∧
    (∀ (e : ChatEnv) nm msg, e.character = some nm → e.provider = .error msg →
      chatHandler e = .error ("Error generating response: ".toList ++ msg)) ∧
    (∀ (e : ChatEnv) err, chatHandler { e with memory := .error err } =
      chatHandler { e with memory := .ok [] }) := by
  refine ⟨?_, ?_, ?_⟩
  · intro e
    obtain ⟨ch, mem, coll, prov, add⟩ := e
    constructor
    · rintro ⟨msg, h⟩
      cases ch with
      | none => exact Or.inl rfl
      | some nm =>
        cases prov with
        | error err => exact Or.inr (Or.inl ⟨err, rfl⟩)
        | ok choices =>
          cases choices with
          | nil => exact Or.inr (Or.inr rfl)
          | cons t rest => exact Except.noConfusion h
    · rintro (hc | ⟨err, hp⟩ | hp)
      · cases hc
        exact ⟨_, rfl⟩
      · cases hp
        cases ch with
        | none => exact ⟨_, rfl⟩
        | some nm => exact ⟨_, rfl⟩
      · cases hp
        cases ch with
        | none => exact ⟨_, rfl⟩
        | some nm => exact ⟨_, rfl⟩
  · intro e nm msg hc hp
    obtain ⟨ch, mem, coll, prov, add⟩ := e
    cases hc
    cases hp
    rfl
  · intro e err
    obtain ⟨ch, mem, coll, prov, add⟩ := e
    cases ch with
    | none => rfl
    | some nm =>
      cases prov with
      | error msg => rfl
      | ok choices =>
        cases choices with
        | nil => rfl
        | cons t rest => rfl

theorem chromaErrorOut_success (e : List Char) (del : Option (List (List Char))) :
    (chromaErrorOut e del).success = false ∧ (chromaErrorOut e del).deleteCalled = del := by
  unfold chromaErrorOut
  split <;> exact ⟨rfl, rfl⟩

/-- C9 (confirmed): `/clear-history` always returns a `ClearHistoryResponse`
(the handler is a total function into `ClearOut`; even the no-character
`HTTPException` is caught by the outer `except`): zero stored ids yield
success with the "no history found" message and no delete call; a non-empty
id list is deleted in one batch and reported as success; store errors yield
`success = false` with diagnostic text, and a failing delete call likewise
never escapes. -/
theorem clear_history_behaviour :
    (∀ name del, clearHistory (some name) (.ok []) del =
      { message := "No history found for ".toList ++ name ++ ".".toList,
        success := true, deleteCalled := none }) ∧
    (∀ name ids, ids ≠ [] → clearHistory (some name) (.ok ids) (.ok ()) =
      { message := "Cleared conversation history for ".toList ++ name ++ ".".toList,
        success := true, deleteCalled := some ids }) ∧
    (∀ name e del, (clearHistory (some name) (.error e) del).success = false ∧
      (clearHistory (some name) (.error e) del).deleteCalled = none) ∧
    (∀ name ids err, ids ≠ [] →
      (clearHistory (some name) (.ok ids) (.error err)).success = false) ∧
    (∀ st del, (clearHistory none st del).success = false) := by
  refine ⟨fun name del => rfl, ?_, ?_, ?_, fun st del => rfl⟩
  · intro name ids h
    cases ids with
    | nil => exact absurd rfl h
    | cons i is => rfl
  · intro name e del
    exact chromaErrorOut_success e none
  · intro name ids err h
    cases ids with
    | nil => exact absurd rfl h
    | cons i is => exact (chromaErrorOut_success err _).1

/-- C10 (confirmed): loading an environment from a file replaces the active
environment with an object holding exactly the keys `era`, `time_period`,
`detail`, `guardrails` (extra keys of the file are dropped, the four values
are taken from the file); loading an inline environment, or a character by
either path, stores the validated object verbatim. -/
theorem environment_load_key_projection :
    (∀ data : JObj, looksLikeEnvironment data = true →
      ∃ env, loadEnvironmentFromFile data = .ok env ∧
        env.map Prod.fst =
          ["era".toList, "time_period".toList, "detail".toList, "guardrails".toList] ∧
        (∀ k, assoc env k =
          if k = "era".toList ∨ k = "time_period".toList ∨ k = "detail".toList ∨
              k = "guardrails".toList
          then assoc data k else none)) ∧
    (∀ data, looksLikeEnvironment data = true → loadEnvironmentInline data = .ok data) ∧
    (∀ data, looksLikeCharacter data = true →
      loadCharacterFromFile data = .ok data ∧ loadCharacterInline data = .ok data) := by
  refine ⟨?_, ?_, ?_⟩
  · intro data h
    have h4 := h
    simp only [looksLikeEnvironment, List.all_cons, List.all_nil, Bool.and_eq_true,
      Bool.and_true, Option.isSome_iff_exists] at h4
    obtain ⟨⟨v1, hv1⟩, ⟨v2, hv2⟩, ⟨v3, hv3⟩, ⟨v4, hv4⟩⟩ := h4
    refine ⟨_, by rw [loadEnvironmentFromFile, if_pos h], by simp, ?_⟩
    intro k
    simp only [show ("era".toList : List Char) = ['e', 'r', 'a'] from rfl,
      show ("time_period".toList : List Char) = ['t','i','m','e','_','p','e','r','i','o','d'] from rfl,
      show ("detail".toList : List Char) = ['d','e','t','a','i','l'] from rfl,
      show ("guardrails".toList : List Char) = ['g','u','a','r','d','r','a','i','l','s'] from rfl] at hv1 hv2 hv3 hv4
    by_cases h1 : k = "era".toList
    · subst h1
      simp [assoc, getD, hv1]
    · by_cases h2 : k = "time_period".toList
      · subst h2
        simp [assoc, getD, hv2]
      · by_cases h3 : k = "detail".toList
        · subst h3
          simp [assoc, getD, hv3]
        · by_cases hg : k = "guardrails".toList
          · subst hg
            simp [assoc, getD, hv4]
          · rw [if_neg (by
              intro hk
              rcases hk with hk | hk | hk | hk
              exacts [h1 hk, h2 hk, h3 hk, hg hk])]
            simp only [assoc]
            rw [if_neg (fun hh => h1 hh.symm)]
            rw [if_neg (fun hh => h2 hh.symm)]
            rw [if_neg (fun hh => h3 hh.symm)]
            rw [if_neg (fun hh => hg hh.symm)]
  · intro data h
    rw [loadEnvironmentInline, if_pos h]
  · intro data h
    exact ⟨by rw [loadCharacterFromFile, if_pos h], by rw [loadCharacterInline, if_pos h]⟩

/-! ## Supporting lemmas for the reasoning-pattern substitutions (C3) -/

/-- No match of `m` starts at any position of `s` (bounded, hence decidable
at concrete inputs). -/
def noOccB (m : List Char → Option (List Char)) (s : List Char) : Bool :=
  (List.range (s.length + 1)).all fun i => (m (s.drop i)).isNone

/-- No match of `m` starts inside the prefix `a` of `a ++ r`. -/
def noOccScanB (m : List Char → Option (List Char)) (a r : List Char) : Bool :=
  (List.range a.length).all fun i => (m ((a ++ r).drop i)).isNone

theorem noOccB_all {m : List Char → Option (List Char)} {s : List Char}
    (h : noOccB m s = true) : ∀ i, m (s.drop i) = none := by
  intro i
  simp only [noOccB, List.all_eq_true, List.mem_range] at h
  by_cases hi : i ≤ s.length
  · exact Option.isNone_iff_eq_none.mp (h i (by omega))
  · have h1 : s.drop i = [] := List.drop_eq_nil_of_le (by omega)
    have h2 : s.drop s.length = [] := List.drop_eq_nil_of_le (le_refl _)
    rw [h1, ← h2]
    exact Option.isNone_iff_eq_none.mp (h s.length (by omega))

theorem noOccScanB_all {m : List Char → Option (List Char)} {a r : List Char}
    (h : noOccScanB m a r = true) : ∀ i, i < a.length → m ((a ++ r).drop i) = none := by
  intro i hi
  simp only [noOccScanB, List.all_eq_true, List.mem_range] at h
  exact Option.isNone_iff_eq_none.mp (h i hi)

theorem dropToNL_append_nl {b c : List Char} (hb : '\n' ∉ b) :
    dropToNL (b ++ '\n' :: c) = '\n' :: c := by
  induction b with
  | nil => simp [dropToNL]
  | cons x xs ih =>
    simp only [List.mem_cons, not_or] at hb
    have hx : x ≠ '\n' := fun h => hb.1 h.symm
    simp only [List.cons_append, dropToNL, List.dropWhile_cons]
    rw [if_pos (by simpa using hx)]
    exact ih hb.2

theorem subEOL_id_of_noOcc {m : List Char → Option (List Char)}
    (hm : Shrinking (fun t => (m t).map dropToNL)) {s : List Char}
    (h : ∀ i, m (s.drop i) = none) : subEOL m s = s := by
  refine genRw_id _ hm s ?_
  intro i
  rw [h i]
  rfl

/-- C3 (counterexample): `re.sub(r'Let me think.*?$', ...)` with
`MULTILINE | DOTALL` and a lazy `.*?` deletes only up to the end of the
marker's line — the text after the newline survives, and tag extraction
still runs on it, so the claim's "entire suffix to the end of the input is
deleted before any tag extraction" is false. -/
theorem reasoning_removal_to_eos_counterexample :
    removeReasoningPatterns "Let me think\nHello.".toList = '\n' :: "Hello.".toList ∧
    removeReasoningPatterns "Let me think\nHello.".toList ≠ [] ∧
    extractS "Let me think\n<response>Hi there</response>" = "Hi there" ∧
    findBlocks (preprocessOf "Let me think\n<response>Hi there</response>".toList) ≠ [] :=
  ⟨rfl, fun h => List.noConfusion h, rfl, fun h => List.noConfusion h⟩

/-- C3 (amended): each reasoning-pattern substitution deletes, at every
occurrence of its marker, the text from the marker to the end of the
marker's LINE (up to but excluding the next newline, or to end-of-string),
not to the end of the input: shown generically for any marker matcher, and
concretely for the composed five-pattern pass. -/
theorem reasoning_sub_deletes_to_eol :
    (∀ (m : List Char → Option (List Char)),
      Shrinking (fun t => (m t).map dropToNL) →
      ∀ a r b c, m r = some (b ++ '\n' :: c) → '\n' ∉ b →
        noOccScanB m a r = true → noOccB m ('\n' :: c) = true →
        subEOL m (a ++ r) = a ++ '\n' :: c) ∧
    removeReasoningPatterns "Okay, let\x27s see. plan\nDone now.".toList =
      '\n' :: "Done now.".toList ∧
    removeReasoningPatterns "Okay let me think about it.".toList = "Okay ".toList := by
  refine ⟨?_, rfl, rfl⟩
  intro m hm a r b c hmr hb ha hc
  induction a with
  | nil =>
    cases r with
    | nil =>
      exfalso
      have hstep : (fun t => (m t).map dropToNL) [] = some (dropToNL (b ++ '\n' :: c)) := by
        show (m []).map dropToNL = _
        rw [hmr]
        rfl
      have := hm [] _ hstep
      simp at this
    | cons x xs =>
      rw [List.nil_append, subEOL, genRw_cons _ hm]
      have hstep : (m (x :: xs)).map dropToNL = some ('\n' :: c) := by
        rw [hmr]
        show some (dropToNL (b ++ '\n' :: c)) = some ('\n' :: c)
        rw [dropToNL_append_nl hb]
      rw [hstep]
      show subEOL m ('\n' :: c) = '\n' :: c
      exact subEOL_id_of_noOcc hm (noOccB_all hc)
  | cons ch a ih =>
    have h0 : m (ch :: (a ++ r)) = none := by
      have := noOccScanB_all ha 0 (by simp)
      simpa using this
    rw [List.cons_append, subEOL, genRw_cons _ hm]
    have hstep0 : (m (ch :: (a ++ r))).map dropToNL = none := by
      rw [h0]
      rfl
    rw [hstep0]
    have ha' : noOccScanB m a r = true := by
      simp only [noOccScanB, List.all_eq_true, List.mem_range] at ha ⊢
      intro i hi
      have := ha (i + 1) (by simp only [List.length_cons]; omega)
      simpa using this
    show ch :: subEOL m (a ++ r) = ch :: (a ++ '\n' :: c)
    rw [ih ha']

/-- Witness for `reasoning_sub_deletes_to_eol` at the `Let me think` marker. -/
theorem reasoning_sub_deletes_to_eol_witness :
    mReason3 "Let me think now\nBye friend.".toList =
      some (" now".toList ++ '\n' :: "Bye friend.".toList) ∧
    subEOL mReason3 ("Hi.\n".toList ++ "Let me think now\nBye friend.".toList) =
      "Hi.\n".toList ++ '\n' :: "Bye friend.".toList :=
  ⟨rfl,
    reasoning_sub_deletes_to_eol.1 mReason3 mReason3_shrink
      "Hi.\n".toList "Let me think now\nBye friend.".toList
      " now".toList "Bye friend.".toList rfl (by decide) (by decide) (by decide)⟩

/-! ## Supporting lemmas for the tagged-block selection (C1) and the
unterminated-tag fallback (C5) -/

/-- Lexicographic strict order on Python int 3-tuples, as a proposition. -/
def tLt (p q : Nat × Nat × Nat) : Prop :=
  p.1 < q.1 ∨ (p.1 = q.1 ∧ (p.2.1 < q.2.1 ∨ (p.2.1 = q.2.1 ∧ p.2.2 < q.2.2)))

theorem tripleLtB_iff (p q : Nat × Nat × Nat) : tripleLtB p q = true ↔ tLt p q := by
  unfold tripleLtB tLt
  exact decide_eq_true_iff

theorem tLt_irrefl (p : Nat × Nat × Nat) : ¬ tLt p p := by
  obtain ⟨a, b, c⟩ := p
  simp [tLt]

theorem tLt_trans {p q r : Nat × Nat × Nat} (h1 : tLt p q) (h2 : tLt q r) : tLt p r := by
  obtain ⟨a1, b1, c1⟩ := p
  obtain ⟨a2, b2, c2⟩ := q
  obtain ⟨a3, b3, c3⟩ := r
  simp only [tLt] at h1 h2 ⊢
  omega

theorem tLt_total {p q : Nat × Nat × Nat} (h : ¬ tLt p q) : tLt q p ∨ q = p := by
  obtain ⟨a1, b1, c1⟩ := p
  obtain ⟨a2, b2, c2⟩ := q
  simp only [tLt, Prod.mk.injEq] at h ⊢
  omega

theorem pyMaxBy_mem (f : List Char → Nat × Nat × Nat) (xs : List (List Char)) :
    ∀ x, pyMaxBy f x xs ∈ x :: xs := by
  induction xs with
  | nil =>
    intro x
    simp [pyMaxBy]
  | cons z zs ih =>
    intro x
    show pyMaxBy f (if tripleLtB (f x) (f z) then z else x) zs ∈ x :: z :: zs
    have h := ih (if tripleLtB (f x) (f z) then z else x)
    rcases List.mem_cons.mp h with h1 | h1
    · rw [h1]
      by_cases hc : tripleLtB (f x) (f z) = true
      · rw [if_pos hc]
        exact List.mem_cons_of_mem _ (List.mem_cons_self _ _)
      · rw [if_neg hc]
        exact List.mem_cons_self _ _
    · exact List.mem_cons_of_mem _ (List.mem_cons_of_mem _ h1)

theorem pyMaxBy_not_lt (f : List Char → Nat × Nat × Nat) (xs : List (List Char)) :
    ∀ x, ∀ y ∈ x :: xs, ¬ tLt (f (pyMaxBy f x xs)) (f y) := by
  induction xs with
  | nil =>
    intro x y hy
    rcases List.mem_cons.mp hy with h1 | h1
    · rw [h1]
      simpa [pyMaxBy] using tLt_irrefl (f x)
    · cases h1
  | cons z zs ih =>
    intro x y hy
    have hunfold : pyMaxBy f x (z :: zs) =
        pyMaxBy f (if tripleLtB (f x) (f z) then z else x) zs := rfl
    rw [hunfold]
    by_cases hc : tripleLtB (f x) (f z) = true
    · rw [if_pos hc]
      have hxz : tLt (f x) (f z) := (tripleLtB_iff _ _).mp hc
      rcases List.mem_cons.mp hy with h1 | h1
      · rw [h1]
        intro hlt
        exact ih z z (List.mem_cons_self _ _) (tLt_trans hlt hxz)
      · rcases List.mem_cons.mp h1 with h2 | h2
        · rw [h2]
          exact ih z z (List.mem_cons_self _ _)
        · exact ih z y (List.mem_cons_of_mem _ h2)
    · rw [if_neg hc]
      have hxz : ¬ tLt (f x) (f z) := fun hl => hc ((tripleLtB_iff _ _).mpr hl)
      rcases List.mem_cons.mp hy with h1 | h1
      · rw [h1]
        exact ih x x (List.mem_cons_self _ _)
      · rcases List.mem_cons.mp h1 with h2 | h2
        · rw [h2]
          intro hlt
          rcases tLt_total hxz with h3 | h3
          · exact ih x x (List.mem_cons_self _ _) (tLt_trans hlt h3)
          · rw [h3] at hlt
            exact ih x x (List.mem_cons_self _ _) hlt
        · exact ih x y (List.mem_cons_of_mem _ h2)

theorem pyMaxBy_placeholder (x : List Char) (xs : List (List Char))
    (h : ∃ y ∈ x :: xs, isPlaceholderBlock (strip y) = false) :
    isPlaceholderBlock (strip (pyMaxBy scoreTriple x xs)) = false := by
  obtain ⟨y, hy, hyp⟩ := h
  have hnl := pyMaxBy_not_lt scoreTriple xs x y hy
  cases hM : isPlaceholderBlock (strip (pyMaxBy scoreTriple x xs)) with
  | false => rfl
  | true =>
    exfalso
    apply hnl
    have h1 : (scoreTriple (pyMaxBy scoreTriple x xs)).1 = 0 := by
      simp [scoreTriple, hM]
    have h2 : (scoreTriple y).1 = 1 := by
      simp [scoreTriple, hyp]
    exact Or.inl (by omega)

theorem expectCI_suffix {lit s r : List Char} (h : expectCI lit s = some r) : r <:+ s := by
  induction lit generalizing s with
  | nil =>
    simp only [expectCI] at h
    cases h
    exact List.suffix_refl r
  | cons p ps ih =>
    cases s with
    | nil => simp [expectCI] at h
    | cons c cs =>
      simp only [expectCI] at h
      split at h
      · exact (ih h).trans (List.suffix_cons c cs)
      · cases h

theorem findCI_suffix {lit s r : List Char} (h : findCI lit s = some r) : r <:+ s := by
  induction s with
  | nil => exact expectCI_suffix h
  | cons c cs ih =>
    simp only [findCI] at h
    cases he : expectCI lit (c :: cs) with
    | some r2 =>
      rw [he] at h
      cases h
      exact expectCI_suffix he
    | none =>
      rw [he] at h
      exact (ih h).trans (List.suffix_cons c cs)

theorem openTagRest_suffix {t r : List Char} (h : openTagRest t = some r) :
    r ≠ [] ∧ r <:+ t := by
  simp only [openTagRest, Option.bind_eq_some] at h
  obtain ⟨r2, h1, h2⟩ := h
  cases r2 with
  | nil => cases h2
  | cons c cs =>
    cases h2
    exact ⟨fun h => List.noConfusion h, findCI_suffix h1⟩

/-- C1 (counterexample): the claim quantifies over raw inputs, but the
reasoning/directive/meta preprocessing runs before tag extraction and can
destroy a closed block: this raw input contains the closed block
`Real line here.`, yet extraction returns the empty string. -/
theorem closed_block_selection_counterexample :
    findBlocks "Let me think <response>Real line here.</response>".toList =
      ["Real line here.".toList] ∧
    extractS "Let me think <response>Real line here.</response>" = "" ∧
    ("" : String) ≠ "Real line here." :=
  ⟨rfl, rfl, by decide⟩

/-- C1 (amended): whenever the PREPROCESSED text (after preface, reasoning,
directive and leading-meta stripping) still contains at least one closed
`<response>...</response>` block, the result is the first block maximizing
the score triple (non-placeholder, no meta-marker, stripped length),
stripped of residual tags, special tokens and leading meta lines; a
placeholder block is never selected while a non-placeholder block exists,
and with only placeholder blocks one is still returned (the selection is
total on the block list); the spec's concrete example holds on the raw
input. -/
theorem closed_block_selection :
    (∀ s b bs, findBlocks (preprocessOf s) = b :: bs →
      extractCharacterResponse s =
        stripLeadingMetaLines (subSpecial (subTags (strip (pyMaxBy scoreTriple b bs)))) ∧
      pyMaxBy scoreTriple b bs ∈ b :: bs ∧
      (∀ y ∈ b :: bs, tripleLtB (scoreTriple (pyMaxBy scoreTriple b bs)) (scoreTriple y) = false) ∧
      ((∃ y ∈ b :: bs, isPlaceholderBlock (strip y) = false) →
        isPlaceholderBlock (strip (pyMaxBy scoreTriple b bs)) = false)) ∧
    extractS "<response>...</response><response>Real line here.</response>" =
      "Real line here." := by
  refine ⟨?_, rfl⟩
  intro s b bs h
  refine ⟨?_, pyMaxBy_mem scoreTriple bs b, ?_, pyMaxBy_placeholder b bs⟩
  · simp only [extractCharacterResponse]
    rw [h]
  · intro y hy
    rw [Bool.eq_false_iff]
    intro hcon
    exact pyMaxBy_not_lt scoreTriple bs b y hy ((tripleLtB_iff _ _).mp hcon)

/-- Witness for `closed_block_selection` at the spec's two-block example. -/
theorem closed_block_selection_witness :
    findBlocks
        (preprocessOf
          "<response>...</response><response>Real line here.</response>".toList) =
      ["...".toList, "Real line here.".toList] ∧
    extractCharacterResponse
        "<response>...</response><response>Real line here.</response>".toList =
      stripLeadingMetaLines (subSpecial (subTags
        (strip (pyMaxBy scoreTriple "...".toList ["Real line here.".toList])))) ∧
    isPlaceholderBlock
        (strip (pyMaxBy scoreTriple "...".toList ["Real line here.".toList])) = false := by
  have hb : findBlocks
      (preprocessOf
        "<response>...</response><response>Real line here.</response>".toList) =
      ["...".toList, "Real line here.".toList] := by decide
  have h := closed_block_selection.1
    "<response>...</response><response>Real line here.</response>".toList
    "...".toList ["Real line here.".toList] hb
  exact ⟨hb, h.1, h.2.2.2 ⟨"Real line here.".toList, by simp, by decide⟩⟩

/-- C5 (counterexample): the claim quantifies over raw inputs, but the
preprocessing can consume the opening tag: this input contains an opening
`<response>` and no closed block, yet extraction returns the empty string
rather than the text after the tag. -/
theorem open_tag_fallback_counterexample :
    (findCI "<response>".toList "Let me think <response>Hello".toList).isSome = true ∧
    findBlocks "Let me think <response>Hello".toList = [] ∧
    extractS "Let me think <response>Hello" = "" ∧
    ("" : String) ≠ "Hello" :=
  ⟨rfl, rfl, rfl, by decide⟩

/-- C5 (amended): whenever the PREPROCESSED text has no closed block but
still contains an opening `<response>` tag followed by at least one
character, the result is everything after the first such tag (a non-empty
suffix of the preprocessed text), stripped of tags, special tokens and
leading meta lines; the spec's concrete example holds on the raw input. -/
theorem open_tag_fallback :
    (∀ s rest, findBlocks (preprocessOf s) = [] →
      openTagRest (preprocessOf s) = some rest →
      extractCharacterResponse s =
        stripLeadingMetaLines (subSpecial (subTags (strip rest))) ∧
      rest ≠ [] ∧ rest <:+ preprocessOf s) ∧
    extractS "blah <response>Hello world" = "Hello world" := by
  refine ⟨?_, rfl⟩
  intro s rest h1 h2
  obtain ⟨hne, hsuf⟩ := openTagRest_suffix h2
  refine ⟨?_, hne, hsuf⟩
  simp only [extractCharacterResponse]
  rw [h1, h2]

/-- Witness for `open_tag_fallback` at the spec's unterminated-tag example. -/
theorem open_tag_fallback_witness :
    findBlocks (preprocessOf "blah <response>Hello world".toList) = [] ∧
    openTagRest (preprocessOf "blah <response>Hello world".toList) =
      some "Hello world".toList ∧
    extractCharacterResponse "blah <response>Hello world".toList =
      stripLeadingMetaLines (subSpecial (subTags (strip "Hello world".toList))) ∧
    "Hello world".toList ≠ [] := by
  have hb : findBlocks (preprocessOf "blah <response>Hello world".toList) = [] := by
    decide
  have ho : openTagRest (preprocessOf "blah <response>Hello world".toList) =
      some "Hello world".toList := by decide
  have h := open_tag_fallback.1 "blah <response>Hello world".toList
    "Hello world".toList hb ho
  exact ⟨hb, ho, h.1, h.2.1⟩

/-! ## Supporting lemmas for totality and emptiness of extraction (C2) -/

theorem ws_cases {c : Char} (h : isWS c = true) :
    c = ' ' ∨ c = '\t' ∨ c = '\n' ∨ c = '\r' ∨ c = '\x0B' ∨ c = '\x0C' := by
  simpa [isWS, or_assoc] using h

theorem mReason1_ws (c : Char) (cs : List Char) (h : isWS c = true) :
    mReason1 (c :: cs) = none := by
  rcases ws_cases h with rfl | rfl | rfl | rfl | rfl | rfl <;> rfl

theorem mReason2_ws (c : Char) (cs : List Char) (h : isWS c = true) :
    mReason2 (c :: cs) = none := by
  rcases ws_cases h with rfl | rfl | rfl | rfl | rfl | rfl <;> rfl

theorem mReason3_ws (c : Char) (cs : List Char) (h : isWS c = true) :
    mReason3 (c :: cs) = none := by
  rcases ws_cases h with rfl | rfl | rfl | rfl | rfl | rfl <;> rfl

theorem mReason4_ws (c : Char) (cs : List Char) (h : isWS c = true) :
    mReason4 (c :: cs) = none := by
  rcases ws_cases h with rfl | rfl | rfl | rfl | rfl | rfl <;> rfl

theorem mReason5_ws (c : Char) (cs : List Char) (h : isWS c = true) :
    mReason5 (c :: cs) = none := by
  rcases ws_cases h with rfl | rfl | rfl | rfl | rfl | rfl <;> rfl

/-- A substitution whose marker rejects whitespace heads and the empty list
is the identity on all-whitespace text. -/
theorem subEOL_ws_id {m : List Char → Option (List Char)}
    (hm : Shrinking (fun t => (m t).map dropToNL))
    (hhead : ∀ (c : Char) (cs : List Char), isWS c = true → m (c :: cs) = none)
    (hnil : m [] = none) {s : List Char} (hs : ∀ c ∈ s, isWS c = true) :
    subEOL m s = s := by
  refine subEOL_id_of_noOcc hm ?_
  intro i
  cases hd : s.drop i with
  | nil => exact hnil
  | cons c cs =>
    apply hhead
    exact hs c (List.mem_of_mem_drop (hd ▸ List.mem_cons_self c cs))

theorem dirGo_id {m : List Char → Option (List Char)} :
    ∀ (s : List Char), (∀ i, m (s.drop i) = none) → ∀ b, dirGo m s.length b s = s := by
  intro s
  induction s with
  | nil =>
    intro _ b
    rfl
  | cons c cs ih =>
    intro h b
    have h0 : m (c :: cs) = none := by simpa using h 0
    show (if b then
        match m (c :: cs) with
        | some rest => dirGo m cs.length true rest
        | none => c :: dirGo m cs.length (c = '\n') cs
      else c :: dirGo m cs.length (c = '\n') cs) = c :: cs
    have hrec : dirGo m cs.length (decide (c = '\n')) cs = cs :=
      ih (fun i => by simpa using h (i + 1)) _
    by_cases hb : b
    · rw [if_pos hb, h0]
      rw [hrec]
    · rw [if_neg hb]
      rw [hrec]

theorem dropWhile_ws_nil {s : List Char} (hs : ∀ c ∈ s, isWS c = true) :
    s.dropWhile isWS = [] :=
  List.dropWhile_eq_nil_iff.mpr hs

theorem dirNeedTo_ws {s : List Char} (h : s.dropWhile isWS = []) : dirNeedTo s = none := by
  unfold dirNeedTo
  rw [h]
  rfl

theorem dirUserAsks_ws {s : List Char} (h : s.dropWhile isWS = []) : dirUserAsks s = none := by
  unfold dirUserAsks
  rw [h]
  rfl

theorem dirMustWrap_ws {s : List Char} (h : s.dropWhile isWS = []) : dirMustWrap s = none := by
  unfold dirMustWrap
  rw [h]
  rfl

theorem dirSoAnswer_ws {s : List Char} (h : s.dropWhile isWS = []) : dirSoAnswer s = none := by
  unfold dirSoAnswer
  rw [h]
  rfl

theorem dirSub_ws_id {m : List Char → Option (List Char)}
    (hws : ∀ t : List Char, t.dropWhile isWS = [] → m t = none)
    {s : List Char} (hs : ∀ c ∈ s, isWS c = true) : dirSub m s = s := by
  refine dirGo_id s ?_ true
  intro i
  refine hws _ (dropWhile_ws_nil ?_)
  intro c hc
  exact hs c (List.mem_of_mem_drop hc)

theorem splitN_ne_nil (s : List Char) : splitN s ≠ [] := by
  cases s with
  | nil => simp [splitN]
  | cons c cs =>
    simp only [splitN]
    split
    · simp
    · cases h : splitN cs with
      | nil => simp
      | cons l ls => simp

theorem splitN_mem_mem {s l : List Char} {c : Char}
    (hl : l ∈ splitN s) (hc : c ∈ l) : c ∈ s := by
  induction s generalizing l with
  | nil =>
    simp only [splitN, List.mem_singleton] at hl
    subst hl
    cases hc
  | cons d ds ih =>
    simp only [splitN] at hl
    split at hl
    · rcases List.mem_cons.mp hl with h1 | h1
      · subst h1
        cases hc
      · exact List.mem_cons_of_mem d (ih h1 hc)
    · cases hsp : splitN ds with
      | nil => exact absurd hsp (splitN_ne_nil ds)
      | cons x xs =>
        rw [hsp] at hl
        rcases List.mem_cons.mp hl with h1 | h1
        · subst h1
          rcases List.mem_cons.mp hc with h2 | h2
          · rw [h2]
            exact List.mem_cons_self d ds
          · exact List.mem_cons_of_mem d (ih (hsp ▸ List.mem_cons_self x xs) h2)
        · exact List.mem_cons_of_mem d (ih (hsp ▸ List.mem_cons_of_mem x h1) hc)

theorem rstrip_eq_nil_of_ws {l : List Char} (h : ∀ c ∈ l, isWS c = true) :
    rstrip l = [] := by
  induction l with
  | nil => rfl
  | cons c cs ih =>
    show (match rstrip cs with
      | [] => if isWS c then [] else [c]
      | r => c :: r) = []
    rw [ih (fun d hd => h d (List.mem_cons_of_mem c hd))]
    rw [if_pos (h c (List.mem_cons_self c cs))]

theorem stripLeadingMetaLines_ws {s : List Char} (hs : ∀ c ∈ s, isWS c = true) :
    stripLeadingMetaLines s = [] := by
  unfold stripLeadingMetaLines
  by_cases h0 : s = []
  · rw [if_pos h0, h0]
  · rw [if_neg h0]
    have hall : ((splitN s).map rstrip).dropWhile droppableLine = [] := by
      rw [List.dropWhile_eq_nil_iff]
      intro x hx
      obtain ⟨l, hl, hrl⟩ := List.mem_map.mp hx
      have : x = [] := by
        rw [← hrl]
        exact rstrip_eq_nil_of_ws (fun c hc => hs c (splitN_mem_mem hl hc))
      rw [this]
      rfl
    rw [hall]
    rfl

/-- C2 (counterexample): extraction can return the empty string on an input
that is neither empty nor whitespace, and whose tag-and-whitespace residue
is non-empty: the selected closed block is empty while the surrounding text
survives every stripping step. -/
theorem extract_empty_on_nonempty_counterexample :
    extractS "x<response></response>" = "" ∧
    "x<response></response>".toList.any (fun c => !isWS c) = true ∧
    strip (subSpecial (subTags "x<response></response>".toList)) = "x".toList :=
  ⟨rfl, by decide, by decide⟩

/-- C2 (amended): the extraction engine is a total function (every stage is a
total scanner, so it returns a string on every input — there is nothing to
raise); on empty and all-whitespace inputs it returns the empty string; but
an empty result does NOT imply the input was empty/whitespace after
stripping (see the counterexample). -/
theorem extract_total_and_whitespace :
    (∀ s : List Char, (∀ c ∈ s, isWS c = true) → extractCharacterResponse s = []) ∧
    extractS "" = "" ∧
    extractS "   \n\t " = "" := by
  refine ⟨?_, rfl, rfl⟩
  intro s hs
  have h1 : parenStrip s = s := by
    unfold parenStrip
    rw [dropWhile_ws_nil hs]
  have h2 : removeReasoningPatterns (parenStrip s) = s := by
    rw [h1]
    unfold removeReasoningPatterns
    rw [subEOL_ws_id mReason1_shrink mReason1_ws rfl hs,
      subEOL_ws_id mReason2_shrink mReason2_ws rfl hs,
      subEOL_ws_id mReason3_shrink mReason3_ws rfl hs,
      subEOL_ws_id mReason4_shrink mReason4_ws rfl hs,
      subEOL_ws_id mReason5_shrink mReason5_ws rfl hs]
  have h3 : removeDirectiveLines (removeReasoningPatterns (parenStrip s)) = s := by
    rw [h2]
    unfold removeDirectiveLines
    rw [dirSub_ws_id (fun t ht => dirNeedTo_ws ht) hs,
      dirSub_ws_id (fun t ht => dirUserAsks_ws ht) hs,
      dirSub_ws_id (fun t ht => dirMustWrap_ws ht) hs,
      dirSub_ws_id (fun t ht => dirSoAnswer_ws ht) hs]
  have hpre : preprocessOf s = [] := by
    unfold preprocessOf
    rw [h3]
    exact stripLeadingMetaLines_ws hs
  simp only [extractCharacterResponse]
  rw [hpre]
  rfl

/-- Witness for `extract_total_and_whitespace` at a concrete whitespace
string. -/
theorem extract_total_and_whitespace_witness :
    "  \n ".toList.all isWS = true ∧
    extractCharacterResponse "  \n ".toList = [] :=
  ⟨by decide,
    extract_total_and_whitespace.1 "  \n ".toList (by decide)⟩

/-! ## Idempotence of `_strip_leading_meta_lines` (C4, part 1)

The stripper rstrips every line, drops leading droppable lines, rejoins and
strips the result. Its output is characterized line-by-line: every surviving
line is rstrip-fixed, the first kept line is non-droppable, and the final
`strip` removes the first line's leading whitespace and any trailing run of
empty lines — after which a second application changes nothing. -/

theorem rstrip_idem (l : List Char) : rstrip (rstrip l) = rstrip l := by
  induction l with
  | nil => rfl
  | cons c cs ih =>
    show rstrip (match rstrip cs with
      | [] => if isWS c then [] else [c]
      | r => c :: r) = (match rstrip cs with
      | [] => if isWS c then [] else [c]
      | r => c :: r)
    cases hr : rstrip cs with
    | nil =>
      by_cases hc : isWS c
      · simp [hc]
        rfl
      · simp [rstrip, hc]
    | cons x xs =>
      have h2 : rstrip (x :: xs) = x :: xs := by rw [← hr, ih, hr]
      show rstrip (c :: x :: xs) = c :: x :: xs
      show (match rstrip (x :: xs) with
        | [] => if isWS c then [] else [c]
        | r => c :: r) = c :: x :: xs
      rw [h2]

theorem lstrip_cons_id {c : Char} {rest : List Char} (hc : isWS c = false) :
    lstrip (c :: rest) = c :: rest := by
  simp [lstrip, List.dropWhile_cons, hc]

theorem lstrip_cons_ws {c : Char} {rest : List Char} (hc : isWS c = true) :
    lstrip (c :: rest) = lstrip rest := by
  simp [lstrip, List.dropWhile_cons, hc]

theorem lstrip_idem (l : List Char) : lstrip (lstrip l) = lstrip l := by
  induction l with
  | nil => rfl
  | cons c cs ih =>
    cases hc : isWS c with
    | true =>
      rw [lstrip_cons_ws hc, ih]
    | false =>
      rw [lstrip_cons_id hc, lstrip_cons_id hc]

theorem rstrip_lstrip (l : List Char) : rstrip (lstrip l) = lstrip (rstrip l) := by
  induction l with
  | nil => rfl
  | cons c cs ih =>
    cases hc : isWS c with
    | true =>
      rw [lstrip_cons_ws hc, ih]
      show lstrip (rstrip cs) = lstrip (match rstrip cs with
        | [] => if isWS c then [] else [c]
        | r => c :: r)
      cases hr : rstrip cs with
      | nil => simp [hc]
      | cons x xs => rw [lstrip_cons_ws hc]
    | false =>
      rw [lstrip_cons_id hc]
      show (match rstrip cs with
        | [] => if isWS c then [] else [c]
        | r => c :: r) = lstrip (match rstrip cs with
        | [] => if isWS c then [] else [c]
        | r => c :: r)
      cases hr : rstrip cs with
      | nil =>
        have hc' : ¬ isWS c = true := by simp [hc]
        rw [if_neg hc']
        exact (lstrip_cons_id hc).symm
      | cons x xs =>
        exact (lstrip_cons_id hc).symm

theorem strip_idem (s : List Char) : strip (strip s) = strip s := by
  rw [strip, strip, rstrip_lstrip, lstrip_idem, rstrip_idem]

theorem strip_lstrip (l : List Char) : strip (lstrip l) = strip l := by
  rw [strip, strip, rstrip_lstrip, lstrip_idem]

theorem droppableLine_lstrip (l : List Char) :
    droppableLine (lstrip l) = droppableLine l := by
  simp only [droppableLine, strip_lstrip]

/-- `rstrip` across an append: if the right part rstrips to nothing the left
part is rstripped, otherwise the left part survives whole. -/
theorem rstrip_append (a b : List Char) :
    rstrip (a ++ b) = if rstrip b = [] then rstrip a else a ++ rstrip b := by
  induction a with
  | nil =>
    by_cases hb : rstrip b = []
    · simp [hb]
      rfl
    · simp [hb]
  | cons c a' ih =>
    by_cases hb : rstrip b = []
    · rw [if_pos hb] at ih ⊢
      show (match rstrip (a' ++ b) with
        | [] => if isWS c then [] else [c]
        | r => c :: r) = rstrip (c :: a')
      rw [ih]
      rfl
    · rw [if_neg hb] at ih ⊢
      show (match rstrip (a' ++ b) with
        | [] => if isWS c then [] else [c]
        | r => c :: r) = (c :: a') ++ rstrip b
      rw [ih]
      cases ha : a' ++ rstrip b with
      | nil =>
        exact absurd (List.append_eq_nil.mp ha).2 hb
      | cons y ys =>
        rw [List.cons_append, ha]

/-- Drop trailing empty lines (the line-list effect of the final `rstrip`
over a newline-join of rstripped lines). -/
def dte : List (List Char) → List (List Char)
  | [] => []
  | l :: ls =>
    match dte ls with
    | [] => if l = [] then [] else [l]
    | r => l :: r

theorem dte_mem : ∀ {ls : List (List Char)} {x : List Char}, x ∈ dte ls → x ∈ ls := by
  intro ls
  induction ls with
  | nil => intro x hx; cases hx
  | cons l ls' ih =>
    intro x hx
    show x ∈ l :: ls'
    have hE : dte (l :: ls') = match dte ls' with
      | [] => if l = [] then [] else [l]
      | r => l :: r := rfl
    rw [hE] at hx
    cases hd : dte ls' with
    | nil =>
      rw [hd] at hx
      by_cases hl : l = []
      · rw [if_pos hl] at hx
        cases hx
      · rw [if_neg hl] at hx
        rcases List.mem_singleton.mp hx with h
        exact h ▸ List.mem_cons_self l ls'
    | cons d ds =>
      rw [hd] at hx
      rcases List.mem_cons.mp hx with h | h
      · exact h ▸ List.mem_cons_self l ls'
      · exact List.mem_cons_of_mem l (ih (hd ▸ h))

theorem dte_ne_single_nil (ls : List (List Char)) : dte ls ≠ [[]] := by
  cases ls with
  | nil => simp [dte]
  | cons l ls' =>
    have hE : dte (l :: ls') = match dte ls' with
      | [] => if l = [] then [] else [l]
      | r => l :: r := rfl
    rw [hE]
    cases hd : dte ls' with
    | nil =>
      by_cases hl : l = []
      · rw [if_pos hl]
        simp
      · rw [if_neg hl]
        simp [hl]
    | cons d ds =>
      intro h
      injection h with h1 h2
      cases h2

theorem dte_cons_ne {l : List Char} (ls : List (List Char)) (hl : l ≠ []) :
    dte (l :: ls) = l :: dte ls := by
  have hE : dte (l :: ls) = match dte ls with
    | [] => if l = [] then [] else [l]
    | r => l :: r := rfl
  rw [hE]
  cases hd : dte ls with
  | nil => rw [if_neg hl]
  | cons d ds => rfl

theorem joinN_ne_nil {M : List (List Char)} (h1 : M ≠ []) (h2 : M ≠ [[]]) :
    joinN M ≠ [] := by
  cases M with
  | nil => exact absurd rfl h1
  | cons m ms =>
    cases ms with
    | nil =>
      cases m with
      | nil => exact absurd rfl h2
      | cons c cs => simp [joinN]
    | cons m2 ms' =>
      show m ++ '\n' :: joinN (m2 :: ms') ≠ []
      simp

/-- The right-fold form of `rstrip` over a join of rstrip-fixed lines: it
deletes exactly the trailing empty lines. -/
theorem rstrip_joinN (ls : List (List Char)) (h : ∀ l ∈ ls, rstrip l = l) :
    rstrip (joinN ls) = joinN (dte ls) := by
  induction ls with
  | nil => rfl
  | cons l ls' ih =>
    cases ls' with
    | nil =>
      show rstrip l = joinN (dte [l])
      rw [h l (List.mem_cons_self l [])]
      have hE : dte [l] = match dte ([] : List (List Char)) with
        | [] => if l = [] then [] else [l]
        | r => l :: r := rfl
      rw [hE]
      by_cases hl : l = []
      · rw [if_pos hl, hl]
        rfl
      · rw [if_neg hl]
        rfl
    | cons m ms =>
      have ih' : rstrip (joinN (m :: ms)) = joinN (dte (m :: ms)) :=
        ih (fun x hx => h x (List.mem_cons_of_mem l hx))
      show rstrip (l ++ '\n' :: joinN (m :: ms)) = joinN (dte (l :: m :: ms))
      rw [rstrip_append]
      have hEr : rstrip ('\n' :: joinN (m :: ms)) = match rstrip (joinN (m :: ms)) with
        | [] => if isWS '\n' then [] else ['\n']
        | r => '\n' :: r := rfl
      have hEd : dte (l :: m :: ms) = match dte (m :: ms) with
        | [] => if l = [] then [] else [l]
        | r => l :: r := rfl
      cases hd : dte (m :: ms) with
      | nil =>
        have hnil : rstrip ('\n' :: joinN (m :: ms)) = [] := by
          rw [hEr, ih', hd]
          rfl
        rw [if_pos hnil, hEd, hd, h l (List.mem_cons_self l _)]
        by_cases hl : l = []
        · rw [if_pos hl, hl]
          rfl
        · rw [if_neg hl]
          rfl
      | cons d ds =>
        have hjne : joinN (d :: ds) ≠ [] :=
          joinN_ne_nil (by simp) (by rw [← hd]; exact dte_ne_single_nil (m :: ms))
        have hcons : rstrip ('\n' :: joinN (m :: ms)) = '\n' :: joinN (d :: ds) := by
          rw [hEr, ih', hd]
          cases hj : joinN (d :: ds) with
          | nil => exact absurd hj hjne
          | cons y ys => rfl
        rw [if_neg (by rw [hcons]; simp), hcons, hEd, hd]
        rfl

theorem splitN_no_nl {l : List Char} (h : '\n' ∉ l) : splitN l = [l] := by
  induction l with
  | nil => rfl
  | cons c cs ih =>
    simp only [List.mem_cons, not_or] at h
    have hc : ¬ c = '\n' := fun hh => h.1 hh.symm
    simp only [splitN]
    rw [if_neg hc, ih h.2]

theorem splitN_append_nl {l : List Char} (r : List Char) (h : '\n' ∉ l) :
    splitN (l ++ '\n' :: r) = l :: splitN r := by
  induction l with
  | nil =>
    show splitN ('\n' :: r) = [] :: splitN r
    simp [splitN]
  | cons c cs ih =>
    simp only [List.mem_cons, not_or] at h
    have hc : ¬ c = '\n' := fun hh => h.1 hh.symm
    show splitN (c :: (cs ++ '\n' :: r)) = (c :: cs) :: splitN r
    simp only [splitN]
    rw [if_neg hc, ih h.2]

theorem splitN_joinN_inv : ∀ {M : List (List Char)}, (∀ l ∈ M, '\n' ∉ l) → M ≠ [] →
    splitN (joinN M) = M := by
  intro M
  induction M with
  | nil => intro _ h; exact absurd rfl h
  | cons l M' ih =>
    intro h _
    cases M' with
    | nil =>
      show splitN (joinN [l]) = [l]
      exact splitN_no_nl (h l (List.mem_cons_self l []))
    | cons m ms =>
      show splitN (l ++ '\n' :: joinN (m :: ms)) = l :: m :: ms
      rw [splitN_append_nl _ (h l (List.mem_cons_self l _)),
        ih (fun x hx => h x (List.mem_cons_of_mem l hx)) (by simp)]

theorem splitN_no_nl_mem : ∀ {s l : List Char}, l ∈ splitN s → '\n' ∉ l := by
  intro s
  induction s with
  | nil =>
    intro l hl
    simp only [splitN, List.mem_singleton] at hl
    subst hl
    simp
  | cons c cs ih =>
    intro l hl
    simp only [splitN] at hl
    split at hl
    · rcases List.mem_cons.mp hl with h1 | h1
      · subst h1
        simp
      · exact ih h1
    · rename_i hc
      cases hsp : splitN cs with
      | nil => exact absurd hsp (splitN_ne_nil cs)
      | cons x xs =>
        rw [hsp] at hl
        rcases List.mem_cons.mp hl with h1 | h1
        · subst h1
          intro hmem
          rcases List.mem_cons.mp hmem with h2 | h2
          · exact hc h2.symm
          · exact ih (hsp ▸ List.mem_cons_self x xs) h2
        · exact ih (hsp ▸ List.mem_cons_of_mem x h1)

theorem rstrip_mem : ∀ {l : List Char} {c : Char}, c ∈ rstrip l → c ∈ l := by
  intro l
  induction l with
  | nil => intro c hc; cases hc
  | cons d ds ih =>
    intro c hc
    have hE : rstrip (d :: ds) = match rstrip ds with
      | [] => if isWS d then [] else [d]
      | r => d :: r := rfl
    rw [hE] at hc
    cases hr : rstrip ds with
    | nil =>
      rw [hr] at hc
      by_cases hd : isWS d
      · rw [if_pos hd] at hc
        cases hc
      · rw [if_neg hd] at hc
        rcases List.mem_singleton.mp hc with h
        exact h ▸ List.mem_cons_self d ds
    | cons x xs =>
      rw [hr] at hc
      rcases List.mem_cons.mp hc with h | h
      · exact h ▸ List.mem_cons_self d ds
      · exact List.mem_cons_of_mem d (ih (hr ▸ h))

theorem lstrip_mem {l : List Char} {c : Char} (hc : c ∈ lstrip l) : c ∈ l :=
  (List.dropWhile_sublist isWS).subset hc

theorem lstrip_append_nonws {l : List Char} (r : List Char)
    (h : ∃ c ∈ l, isWS c = false) : lstrip (l ++ r) = lstrip l ++ r := by
  induction l with
  | nil =>
    obtain ⟨c, hc, _⟩ := h
    cases hc
  | cons c cs ih =>
    by_cases hc : isWS c
    · have h' : ∃ d ∈ cs, isWS d = false := by
        obtain ⟨d, hd1, hd2⟩ := h
        rcases List.mem_cons.mp hd1 with h1 | h1
        · rw [h1] at hd2
          rw [hc] at hd2
          cases hd2
        · exact ⟨d, h1, hd2⟩
      show lstrip (c :: (cs ++ r)) = lstrip (c :: cs) ++ r
      simp only [lstrip, List.dropWhile_cons, hc, if_pos]
      exact ih h'
    · show lstrip (c :: (cs ++ r)) = lstrip (c :: cs) ++ r
      have hc' : isWS c = false := by simpa using hc
      rw [lstrip_cons_id hc', lstrip_cons_id hc']
      rfl

theorem lstrip_ne_nil {l : List Char} (h : ∃ c ∈ l, isWS c = false) :
    lstrip l ≠ [] := by
  intro hnil
  obtain ⟨c, hc1, hc2⟩ := h
  have := List.dropWhile_eq_nil_iff.mp hnil c hc1
  rw [hc2] at this
  cases this

theorem exists_nonws_of_strip_ne {l : List Char} (h : strip l ≠ []) :
    ∃ c ∈ l, isWS c = false := by
  by_contra hall
  push_neg at hall
  have hws : ∀ c ∈ l, isWS c = true := by
    intro c hc
    have := hall c hc
    cases hb : isWS c with
    | false => exact absurd hb this
    | true => rfl
  exact h (by rw [strip, rstrip_eq_nil_of_ws hws]; rfl)

theorem droppable_false_strip_ne {l : List Char} (h : droppableLine l = false) :
    strip l ≠ [] := by
  intro hs
  rw [droppableLine] at h
  simp only [hs, if_pos] at h
  cases h

theorem dropWhile_head_not {p : List Char → Bool} :
    ∀ {ls : List (List Char)} {y : List Char} {ys : List (List Char)},
      ls.dropWhile p = y :: ys → p y = false := by
  intro ls
  induction ls with
  | nil => intro y ys h; cases h
  | cons x xs ih =>
    intro y ys h
    rw [List.dropWhile_cons] at h
    by_cases hx : p x = true
    · rw [if_pos hx] at h
      exact ih h
    · rw [if_neg hx] at h
      injection h with h1 _
      subst h1
      simpa using hx

theorem map_rstrip_id : ∀ {ls : List (List Char)}, (∀ l ∈ ls, rstrip l = l) →
    ls.map rstrip = ls := by
  intro ls
  induction ls with
  | nil => intro _; rfl
  | cons l ls' ih =>
    intro h
    simp only [List.map_cons]
    rw [h l (List.mem_cons_self l ls'), ih (fun x hx => h x (List.mem_cons_of_mem l hx))]

/-- `_strip_leading_meta_lines` is idempotent (helper for C4). -/
theorem stripLeadingMetaLines_idem (s : List Char) :
    stripLeadingMetaLines (stripLeadingMetaLines s) = stripLeadingMetaLines s := by
  by_cases h0 : s = []
  · rw [h0]
    rfl
  · have hs : stripLeadingMetaLines s
        = strip (joinN (((splitN s).map rstrip).dropWhile droppableLine)) := by
      rw [stripLeadingMetaLines, if_neg h0]
    have hL1 : ∀ l ∈ ((splitN s).map rstrip).dropWhile droppableLine, rstrip l = l := by
      intro l hl
      have hm := (List.dropWhile_sublist droppableLine).subset hl
      obtain ⟨l0, _, hl0⟩ := List.mem_map.mp hm
      rw [← hl0, rstrip_idem]
    have hL2 : ∀ l ∈ ((splitN s).map rstrip).dropWhile droppableLine, '\n' ∉ l := by
      intro l hl
      have hm := (List.dropWhile_sublist droppableLine).subset hl
      obtain ⟨l0, hl0m, hl0⟩ := List.mem_map.mp hm
      intro hnl
      exact splitN_no_nl_mem hl0m (rstrip_mem (hl0 ▸ hnl))
    cases hc : ((splitN s).map rstrip).dropWhile droppableLine with
    | nil =>
      rw [hs, hc]
      rfl
    | cons l0 Ls =>
      rw [hc] at hs hL1 hL2
      have hl0d : droppableLine l0 = false := dropWhile_head_not hc
      have hstr : strip l0 ≠ [] := droppable_false_strip_ne hl0d
      have hnw : ∃ c ∈ l0, isWS c = false := exists_nonws_of_strip_ne hstr
      have hl0ne : l0 ≠ [] := by
        intro h
        exact hstr (by rw [h]; rfl)
      have hl0r : rstrip l0 = l0 := hL1 l0 (List.mem_cons_self l0 Ls)
      have hJ : rstrip (joinN (l0 :: Ls)) = joinN (l0 :: dte Ls) := by
        rw [rstrip_joinN _ hL1, dte_cons_ne _ hl0ne]
      have hlr : rstrip (lstrip l0) = lstrip l0 := by
        rw [rstrip_lstrip, hl0r]
      have hld : droppableLine (lstrip l0) = false := by
        rw [droppableLine_lstrip, hl0d]
      have hlnl : '\n' ∉ lstrip l0 := fun hm =>
        hL2 l0 (List.mem_cons_self l0 Ls) (lstrip_mem hm)
      cases hdd : dte Ls with
      | nil =>
        have ht : stripLeadingMetaLines s = lstrip l0 := by
          rw [hs, strip, hJ, hdd]
          rfl
        rw [ht]
        have htne : lstrip l0 ≠ [] := lstrip_ne_nil hnw
        rw [stripLeadingMetaLines, if_neg htne, splitN_no_nl hlnl]
        simp only [List.map_cons, List.map_nil, hlr]
        rw [List.dropWhile_cons, if_neg (by rw [hld]; exact Bool.false_ne_true)]
        show strip (lstrip l0) = lstrip l0
        rw [strip, hlr, lstrip_idem]
      | cons m ms =>
        have hmm : ∀ l ∈ m :: ms, rstrip l = l := by
          intro l hl
          exact hL1 l (List.mem_cons_of_mem l0 (dte_mem (hdd ▸ hl)))
        have hmn : ∀ l ∈ m :: ms, '\n' ∉ l := by
          intro l hl
          exact hL2 l (List.mem_cons_of_mem l0 (dte_mem (hdd ▸ hl)))
        have ht : stripLeadingMetaLines s = lstrip l0 ++ '\n' :: joinN (m :: ms) := by
          rw [hs, strip, hJ, hdd]
          show lstrip (l0 ++ '\n' :: joinN (m :: ms)) = _
          rw [lstrip_append_nonws _ hnw]
        rw [ht]
        have htne : lstrip l0 ++ '\n' :: joinN (m :: ms) ≠ [] := by
          simp
        rw [stripLeadingMetaLines, if_neg htne,
          splitN_append_nl _ hlnl, splitN_joinN_inv hmn (by simp)]
        rw [show List.map rstrip (lstrip l0 :: m :: ms) = lstrip l0 :: m :: ms from by
          rw [List.map_cons, hlr, map_rstrip_id hmm]]
        rw [List.dropWhile_cons, if_neg (by rw [hld]; exact Bool.false_ne_true)]
        show strip (lstrip l0 ++ '\n' :: joinN (m :: ms))
          = lstrip l0 ++ '\n' :: joinN (m :: ms)
        have hteq : lstrip l0 ++ '\n' :: joinN (m :: ms)
            = strip (joinN (l0 :: Ls)) := ht.symm.trans hs
        rw [hteq, strip_idem]

/-! ## Extraction as the identity on clean bare dialogue lines (C4, part 2) -/

/-- The claim's "clean bare string", made precise enough for the identity to
hold: a single substantial stripped line (more than 10 characters, no
newline), with no character case-equal to `'<'` (hence no tags), starting
like dialogue, not a meta line, with no reasoning-word and no occurrence of
any reasoning marker, directive header or drafted-dialogue pattern. -/
def cleanBareB (x : List Char) : Bool :=
  decide (10 < x.length)
  && decide ('\n' ∉ x)
  && x.all (fun c => !ciEq c '<')
  && decide (rstrip x = x)
  && (match x with
      | [] => false
      | c :: _ => !isWS c && (isUpperA c || c = '"' || c = '\x27'))
  && !hasReasonWords x
  && !droppableLine x
  && noOccB mReason1 x && noOccB mReason2 x && noOccB mReason3 x
  && noOccB mReason4 x && noOccB mReason5 x
  && noOccB dirNeedTo x && noOccB dirUserAsks x
  && noOccB dirMustWrap x && noOccB dirSoAnswer x
  && noOccB draftedAttempt x

theorem expectCI_head_false {p c : Char} {ps cs : List Char} (h : ciEq c p = false) :
    expectCI (p :: ps) (c :: cs) = none := by
  simp [expectCI, h]

theorem tagStep_none {t : List Char} (h : ∀ c ∈ t, ciEq c '<' = false) :
    tagStep t = none := by
  cases t with
  | nil => rfl
  | cons c cs =>
    have hc : ¬ c = '<' := by
      intro hcc
      subst hcc
      exact absurd (h '<' (List.mem_cons_self _ _)) (by decide)
    simp [tagStep, hc]

theorem specialStep_none {t : List Char} (h : ∀ c ∈ t, ciEq c '<' = false) :
    specialStep t = none := by
  match t with
  | [] => rfl
  | [c] => rfl
  | c :: d :: cs =>
    have hc : ¬ c = '<' := by
      intro hcc
      subst hcc
      exact absurd (h '<' (List.mem_cons_self _ _)) (by decide)
    simp [specialStep, hc]

theorem subTags_id {x : List Char} (h : ∀ c ∈ x, ciEq c '<' = false) :
    subTags x = x :=
  genRw_id tagStep tagStep_shrink x fun _ =>
    tagStep_none fun c hc => h c (List.mem_of_mem_drop hc)

theorem subSpecial_id {x : List Char} (h : ∀ c ∈ x, ciEq c '<' = false) :
    subSpecial x = x :=
  genRw_id specialStep specialStep_shrink x fun _ =>
    specialStep_none fun c hc => h c (List.mem_of_mem_drop hc)

theorem findBlocksGo_no_lt : ∀ (n : Nat) (t : List Char),
    (∀ c ∈ t, ciEq c '<' = false) → findBlocksGo n t = [] := by
  intro n
  induction n with
  | zero => intro t _; rfl
  | succ n ih =>
    intro t h
    cases t with
    | nil => rfl
    | cons c cs =>
      have he : expectCI "<response>".toList (c :: cs) = none := by
        rw [show ("<response>".toList : List Char)
          = '<' :: "response>".toList from rfl]
        exact expectCI_head_false (h c (List.mem_cons_self c cs))
      simp only [findBlocksGo]
      rw [he]
      exact ih cs (fun d hd => h d (List.mem_cons_of_mem c hd))

theorem findBlocks_no_lt {x : List Char} (h : ∀ c ∈ x, ciEq c '<' = false) :
    findBlocks x = [] :=
  findBlocksGo_no_lt x.length x h

theorem findCI_none : ∀ {t ps : List Char},
    (∀ c ∈ t, ciEq c '<' = false) → findCI ('<' :: ps) t = none := by
  intro t
  induction t with
  | nil => intro ps _; rfl
  | cons c cs ih =>
    intro ps h
    simp only [findCI]
    rw [expectCI_head_false (h c (List.mem_cons_self c cs))]
    exact ih (fun d hd => h d (List.mem_cons_of_mem c hd))

theorem openTagRest_none {x : List Char} (h : ∀ c ∈ x, ciEq c '<' = false) :
    openTagRest x = none := by
  rw [openTagRest,
    show ("<response>".toList : List Char) = '<' :: "response>".toList from rfl,
    findCI_none h]
  rfl

theorem draftedGo_none : ∀ {t : List Char},
    (∀ i, draftedAttempt (t.drop i) = none) → ∀ b, draftedGo b t = none := by
  intro t
  induction t with
  | nil => intro _ b; rfl
  | cons c cs ih =>
    intro h b
    have h0 : draftedAttempt (c :: cs) = none := by simpa using h 0
    have hrec := ih (fun i => by simpa using h (i + 1))
    cases b with
    | true =>
      show draftedGo (isWordChar c) cs = none
      exact hrec _
    | false =>
      show (match draftedAttempt (c :: cs) with
        | some g => some g
        | none => draftedGo (isWordChar c) cs) = none
      rw [h0]
      exact hrec _

theorem dirSub_id {m : List Char → Option (List Char)} {s : List Char}
    (h : ∀ i, m (s.drop i) = none) : dirSub m s = s :=
  dirGo_id s h true

theorem parenStrip_id {c : Char} {rest : List Char} (hcw : isWS c = false)
    (hcp : c ≠ '(') : parenStrip (c :: rest) = c :: rest := by
  unfold parenStrip
  rw [show (c :: rest).dropWhile isWS = c :: rest from lstrip_cons_id hcw]
  split
  · rename_i rest2 heq
    injection heq with h1 _
    exact absurd h1 hcp
  · rfl

theorem stripLead_id {x : List Char} (hne : x ≠ []) (hnl : '\n' ∉ x)
    (hr : rstrip x = x) (hl : lstrip x = x) (hd : droppableLine x = false) :
    stripLeadingMetaLines x = x := by
  rw [stripLeadingMetaLines, if_neg hne, splitN_no_nl hnl,
    show List.map rstrip [x] = [x] from by rw [List.map_cons, List.map_nil, hr],
    List.dropWhile_cons, if_neg (by rw [hd]; exact Bool.false_ne_true)]
  show strip x = x
  rw [strip, hr, hl]

/-- On a clean bare dialogue line every stage of the engine is the identity
or fails over to the next, and the first-substantial-line fallback returns
the line itself. -/
theorem cleanBare_extract_id {x : List Char} (h : cleanBareB x = true) :
    extractCharacterResponse x = x := by
  cases x with
  | nil => simp [cleanBareB] at h
  | cons c rest =>
    simp only [cleanBareB, Bool.and_eq_true, and_assoc, decide_eq_true_eq,
      Bool.not_eq_true', List.all_eq_true] at h
    obtain ⟨h10, hnl, hlt, hr, hcw, hcd, hrw, hdrop, hm1, hm2, hm3, hm4, hm5,
      hd1, hd2, hd3, hd4, hdr⟩ := h
    have hl : lstrip (c :: rest) = c :: rest := lstrip_cons_id hcw
    have hcp : c ≠ '(' := by
      intro hcc
      subst hcc
      exact absurd hcd (by decide)
    have hpp : parenStrip (c :: rest) = c :: rest := parenStrip_id hcw hcp
    have hrr : removeReasoningPatterns (c :: rest) = c :: rest := by
      rw [removeReasoningPatterns,
        subEOL_id_of_noOcc mReason1_shrink (noOccB_all hm1),
        subEOL_id_of_noOcc mReason2_shrink (noOccB_all hm2),
        subEOL_id_of_noOcc mReason3_shrink (noOccB_all hm3),
        subEOL_id_of_noOcc mReason4_shrink (noOccB_all hm4),
        subEOL_id_of_noOcc mReason5_shrink (noOccB_all hm5)]
    have hrd : removeDirectiveLines (c :: rest) = c :: rest := by
      rw [removeDirectiveLines,
        dirSub_id (noOccB_all hd1), dirSub_id (noOccB_all hd2),
        dirSub_id (noOccB_all hd3), dirSub_id (noOccB_all hd4)]
    have hsl : stripLeadingMetaLines (c :: rest) = c :: rest :=
      stripLead_id (by simp) hnl hr hl hdrop
    have hpre : preprocessOf (c :: rest) = c :: rest := by
      rw [preprocessOf, hpp, hrr, hrd, hsl]
    have hfb : findBlocks (c :: rest) = [] := findBlocks_no_lt hlt
    have hot : openTagRest (c :: rest) = none := openTagRest_none hlt
    have hds : draftedSearch (c :: rest) = none :=
      draftedGo_none (fun i => noOccB_all hdr i) false
    have hsp : splitN (c :: rest) = [c :: rest] := splitN_no_nl hnl
    have hst : strip (c :: rest) = c :: rest := by rw [strip, hr, hl]
    have hfsl : firstSubstantialLine [c :: rest] = some (c :: rest) := by
      have hcond : (decide (10 < (c :: rest).length) && !hasReasonWords (c :: rest)
          && (isUpperA c || decide (c = '"') || decide (c = '\x27'))) = true := by
        have h10' : 10 < rest.length + 1 := by simpa using h10
        simp [h10', hrw, hcd]
      simp only [firstSubstantialLine]
      rw [hst]
      show (if (decide (10 < (c :: rest).length) && !hasReasonWords (c :: rest)
          && (isUpperA c || decide (c = '"') || decide (c = '\x27'))) = true then
          some (strip (subSpecial (subTags (c :: rest)))) else none) = some (c :: rest)
      rw [if_pos hcond, subTags_id hlt, subSpecial_id hlt, hst]
    simp only [extractCharacterResponse]
    rw [hpre, hfb, hot, hds, hsp, hfsl]

/-- C4 (counterexample): the extraction engine is NOT idempotent on clean
bare strings. `"she might say: ???\n\"hi\""` contains no tag and no
reasoning/meta marker, yet the first pass only deletes the `???` run (last
resort cleanup), leaving a drafting line whose quoted dialogue the SECOND
pass then extracts: extract(x) = `"she might say:\n\"hi\""` but
extract(extract(x)) = `"hi"`. -/
theorem extract_not_idempotent_counterexample :
    ("she might say: ???\n\"hi\"".toList.all fun c => !ciEq c '<') = true ∧
    (["here are my reasoning", "let me think", "okay,", "must wrap",
      "so answer", "the user asks", "also ensure", "check for", "make sure",
      "now output", "output format", "example (follow", "disallowed content",
      "exactly one block", "it\x27s safe", "guardrails"].all
        fun mark => !ciContains mark.toList "she might say: ???\n\"hi\"".toList) = true ∧
    extractS "she might say: ???\n\"hi\"" = "she might say:\n\"hi\"" ∧
    extractS "she might say:\n\"hi\"" = "hi" ∧
    extractS (extractS "she might say: ???\n\"hi\"")
      ≠ extractS "she might say: ???\n\"hi\"" :=
  ⟨by decide, by decide, by decide, by decide, by decide⟩

/-- C4 (amended): `_strip_leading_meta_lines` is idempotent on EVERY string;
and the extraction engine is the identity — hence idempotent — on clean bare
dialogue lines (`cleanBareB`: a substantial single stripped line with no
tags and no reasoning/directive/drafted markers). Idempotence does NOT
extend to all tag-free marker-free strings (see the counterexample). -/
theorem extract_idempotence :
    (∀ s : List Char,
      stripLeadingMetaLines (stripLeadingMetaLines s) = stripLeadingMetaLines s) ∧
    (∀ x : List Char, cleanBareB x = true →
      extractCharacterResponse x = x ∧
      extractCharacterResponse (extractCharacterResponse x)
        = extractCharacterResponse x) := by
  refine ⟨stripLeadingMetaLines_idem, ?_⟩
  intro x hx
  have h1 := cleanBare_extract_id hx
  refine ⟨h1, ?_⟩
  rw [h1]
  exact h1

/-- Witness for `extract_idempotence` at a concrete clean bare line. -/
theorem extract_idempotence_witness :
    cleanBareB "\"The caves are lovely today.\"".toList = true ∧
    extractCharacterResponse "\"The caves are lovely today.\"".toList
      = "\"The caves are lovely today.\"".toList :=
  ⟨by decide,
    (extract_idempotence.2 "\"The caves are lovely today.\"".toList (by decide)).1⟩

/-- A concrete environment for the C8 witness: character loaded, provider
transport failure. -/
def chatEnvProviderDown : ChatEnv :=
  { character := some "Kaiya Starling".toList,
    memory := .ok [],
    collection := true,
    provider := .error "HTTPSConnectionPool timeout".toList,
    addOk := true }

/-- Witness for `chat_error_conditions` at a concrete environment. -/
theorem chat_error_conditions_witness :
    chatEnvProviderDown.character = some "Kaiya Starling".toList ∧
    chatEnvProviderDown.provider = .error "HTTPSConnectionPool timeout".toList ∧
    chatHandler chatEnvProviderDown =
      .error ("Error generating response: ".toList ++ "HTTPSConnectionPool timeout".toList) :=
  ⟨rfl, rfl,
    chat_error_conditions.2.1 chatEnvProviderDown "Kaiya Starling".toList
      "HTTPSConnectionPool timeout".toList rfl rfl⟩

/-- Witness for `clear_history_behaviour` at a concrete character and id
list. -/
theorem clear_history_behaviour_witness :
    (["doc-1".toList, "doc-2".toList] : List (List Char)) ≠ [] ∧
    clearHistory (some "Kaiya Starling".toList)
        (.ok ["doc-1".toList, "doc-2".toList]) (.ok ()) =
      { message := "Cleared conversation history for ".toList
          ++ "Kaiya Starling".toList ++ ".".toList,
        success := true,
        deleteCalled := some ["doc-1".toList, "doc-2".toList] } :=
  ⟨fun h => List.noConfusion h,
    clear_history_behaviour.2.1 "Kaiya Starling".toList
      ["doc-1".toList, "doc-2".toList] (fun h => List.noConfusion h)⟩

/-- A concrete environment file content with an extra key, for the C10
witness. -/
def envDataExtra : JObj :=
  [("era".toList, J.str "Futuristic".toList),
   ("time_period".toList, J.str "2245".toList),
   ("detail".toList, J.obj [("Environment".toList, J.str "Floating cities".toList)]),
   ("guardrails".toList, J.obj []),
   ("extra".toList, J.num 3)]

/-- Witness for `environment_load_key_projection`: the extra key of the file
is dropped by the file path and kept by the inline path. -/
theorem environment_load_key_projection_witness :
    looksLikeEnvironment envDataExtra = true ∧
    (∃ env, loadEnvironmentFromFile envDataExtra = .ok env ∧
      env.map Prod.fst =
        ["era".toList, "time_period".toList, "detail".toList, "guardrails".toList] ∧
      assoc env "extra".toList = none) ∧
    loadEnvironmentInline envDataExtra = .ok envDataExtra := by
  have h0 : looksLikeEnvironment envDataExtra = true := by rfl
  obtain ⟨env, h1, h2, h3⟩ := environment_load_key_projection.1 envDataExtra h0
  refine ⟨h0, ⟨env, h1, h2, ?_⟩, environment_load_key_projection.2.1 envDataExtra h0⟩
  rw [h3 "extra".toList, if_neg]
  rintro (hk | hk | hk | hk) <;> exact absurd hk (by decide)

end NPC
